import Mathlib

/-!
Verification of the markdown-inline-editor decoration engine.

Text is modelled as `List Char` (JavaScript string positions become list
indices).  JavaScript numbers that can go negative are modelled as `Int`;
indices produced by searches are `Nat`.  Fallible operations
(`String.indexOf` returning `-1`) are modelled with `Option`.

The remark markdown parser is an external dependency of the repository
(treated as a black box by its spec); it is modelled as an arbitrary
function from text to an optional mdast-style tree (`none` models the
parser throwing), and concrete scenario theorems instantiate it with the
tree remark produces for the scenario's input, as fixed by CommonMark and
by the repository's own test suite.
-/

namespace MdInline

/-- Decoration kinds, from `DecorationType` in `src/parser.ts`. -/
inductive DecorationType where
  | hide
  | bold
  | italic
  | boldItalic
  | strikethrough
  | code
  | codeBlock
  | heading
  | heading1
  | heading2
  | heading3
  | heading4
  | heading5
  | heading6
  | link
  | image
  | blockquote
  | listItem
  | checkboxUnchecked
  | checkboxChecked
  | horizontalRule
  deriving DecidableEq, Repr

/-- Decoration range, from `DecorationRange` in `src/parser.ts`.
Positions are JavaScript numbers, modelled as `Int` (they are produced by
integer arithmetic that could in principle go negative). -/
structure DecorationRange where
  startPos : Int
  endPos : Int
  type : DecorationType
  url : Option (List Char) := none
  level : Option Nat := none
  deriving DecidableEq, Repr

/-- The character class of JavaScript's `/\s/` (the whitespace characters
relevant to this code base; the exotic unicode space characters are
included for faithfulness to the regex). -/
def isJsWhitespace (c : Char) : Bool :=
  c = ' ' || c = '\t' || c = '\n' || c = '\r' || c = '\x0b' || c = '\x0c' ||
  c = ' ' || c = ' ' || (0x2000 ≤ c.toNat && c.toNat ≤ 0x200a) ||
  c = ' ' || c = ' ' || c = ' ' || c = ' ' ||
  c = '　' || c = '﻿'

/-- Whether the pattern list is a prefix of the text list (used to model
searches for multi-character substrings). -/
def matchesAt : List Char → List Char → Bool
  | [], _ => true
  | _ :: _, [] => false
  | p :: ps, c :: cs => p = c && matchesAt ps cs

/-- Auxiliary scan: first index (counting from the given offset) at which
the pattern matches. -/
def findSubAux (pat : List Char) : List Char → Nat → Option Nat
  | [], i => if matchesAt pat [] then some i else none
  | c :: cs, i => if matchesAt pat (c :: cs) then some i else findSubAux pat cs (i + 1)

/-- JavaScript `text.indexOf(pat, start)` for a literal pattern, as an
`Option` (`none` models `-1`). -/
def indexOfSubFrom (text : List Char) (pat : List Char) (start : Nat) : Option Nat :=
  match findSubAux pat (text.drop start) 0 with
  | some j => some (start + j)
  | none => none

/-- JavaScript `text.indexOf(c, start)` for a single character. -/
def indexOfFrom (text : List Char) (c : Char) (start : Nat) : Option Nat :=
  indexOfSubFrom text [c] start

/-- Auxiliary backwards search: last index `≤ limit` at which the pattern
matches (scanning forward and keeping the latest hit). -/
def lastSubAux (pat : List Char) (limit : Nat) : List Char → Nat → Option Nat → Option Nat
  | [], i, best => if i ≤ limit && matchesAt pat [] then some i else best
  | c :: cs, i, best =>
    let best' := if i ≤ limit && matchesAt pat (c :: cs) then some i else best
    lastSubAux pat limit cs (i + 1) best'

/-- JavaScript `text.lastIndexOf(pat, fromIndex)`: the largest index
`≤ fromIndex` at which the pattern occurs. -/
def lastIndexOfSub (text : List Char) (pat : List Char) (fromIndex : Nat) : Option Nat :=
  lastSubAux pat fromIndex text 0 none

/-- Counts the run of characters satisfying `p`, with a budget (the run is
also cut at the budget); models `while (pos < stop && p(text[pos])) pos++`
when called with budget `stop - pos` on `text.drop pos`. -/
def countRunAux (p : Char → Bool) : List Char → Nat → Nat
  | _, 0 => 0
  | [], _ + 1 => 0
  | c :: cs, n + 1 => if p c then countRunAux p cs n + 1 else 0

/-- Length of the run of characters satisfying `p` starting at `pos` and
stopping before `stop` (JavaScript loop `while (pos < stop && p(text[pos]))`). -/
def countRun (p : Char → Bool) (text : List Char) (pos stop : Nat) : Nat :=
  countRunAux p (text.drop pos) (stop - pos)

/-- JavaScript `text.includes('\r\n')`, from the fast path of
`mapNormalizedToOriginal` in `src/decorator.ts`. -/
def hasCRLF : List Char → Bool
  | '\r' :: '\n' :: _ => true
  | _ :: rest => hasCRLF rest
  | [] => false

/-- Line-ending normalization `text.replace(/\r\n|\r/g, '\n')` from
`extractDecorations` in `src/parser.ts` (left-to-right, CRLF first). -/
def normalizeNewlines : List Char → List Char
  | '\r' :: '\n' :: rest => '\n' :: normalizeNewlines rest
  | '\r' :: rest => '\n' :: normalizeNewlines rest
  | c :: rest => c :: normalizeNewlines rest
  | [] => []

/-- The walk of `mapNormalizedToOriginal` in `src/decorator.ts`: `i` is the
original index of the first character of the remaining list, `ni` the
normalized index reached so far.  A CRLF pair consumes two original
characters but one normalized unit, and the target check happens before
consuming, so a target equal to the normalized position of the pair's
`\n` returns the position of the `\r`.  Fallthrough returns the total
length (here: `i` plus the remaining length, which equals it). -/
def mapWalkAux (target : Int) : List Char → Nat → Nat → Nat
  | '\r' :: '\n' :: rest, i, ni =>
    if (ni : Int) = target then i else mapWalkAux target rest (i + 2) (ni + 1)
  | _ :: rest, i, ni =>
    if (ni : Int) = target then i else mapWalkAux target rest (i + 1) (ni + 1)
  | [], i, _ => i

/-- `mapNormalizedToOriginal` from `src/decorator.ts`: maps a position in
normalized (LF-only) text back to the original document text.  The first
branch models the JavaScript falsy check on the optional `originalText`
argument (the empty string is falsy); the second the `includes('\r\n')`
fast path. -/
def mapNormalizedToOriginal (normalizedPos : Int) (originalText : List Char) : Int :=
  if originalText.isEmpty then normalizedPos
  else if ¬ hasCRLF originalText then normalizedPos
  else (mapWalkAux normalizedPos originalText 0 0 : Int)

/-- Node kinds of the mdast tree produced by remark (`node.type` strings);
kinds the visitor does not dispatch on are collapsed into the ones listed
plus `other`. -/
inductive NodeKind where
  | root
  | paragraph
  | text
  | heading
  | strong
  | emphasis
  | delete
  | inlineCode
  | code
  | link
  | image
  | blockquote
  | list
  | listItem
  | thematicBreak
  | other
  deriving DecidableEq, BEq, Repr

/-- An mdast `position`: both offsets are individually optional, mirroring
`node.position.start.offset` / `node.position.end.offset` which
`hasValidPosition` checks for `undefined` separately. -/
structure NodePos where
  startOffset : Option Nat
  endOffset : Option Nat
  deriving DecidableEq, Repr

mutual
/-- An mdast node: kind, optional position, optional `url` (links and
images), and children.  The forest type makes the traversal structurally
recursive. -/
inductive MdNode where
  | mk (kind : NodeKind) (position : Option NodePos) (url : Option (List Char))
      (children : MdForest)

/-- A list of sibling mdast nodes. -/
inductive MdForest where
  | nil
  | cons (head : MdNode) (tail : MdForest)
end

/-- The node's kind. -/
def MdNode.kind : MdNode → NodeKind
  | .mk k _ _ _ => k

/-- The node's position record. -/
def MdNode.position : MdNode → Option NodePos
  | .mk _ p _ _ => p

/-- The node's `url` property. -/
def MdNode.url : MdNode → Option (List Char)
  | .mk _ _ u _ => u

/-- The node's children. -/
def MdNode.children : MdNode → MdForest
  | .mk _ _ _ cs => cs

/-- `hasValidPosition` from `src/parser.ts`: the node has a position and
both offsets are defined. -/
def hasValidPosition (node : MdNode) : Bool :=
  match node.position with
  | some p => p.startOffset.isSome && p.endOffset.isSome
  | none => false

/-- The node's start offset, defaulting to 0 (only used after
`hasValidPosition` guarantees it is present). -/
def startOff (node : MdNode) : Nat :=
  match node.position with
  | some p => p.startOffset.getD 0
  | none => 0

/-- The node's end offset, defaulting to 0. -/
def endOff (node : MdNode) : Nat :=
  match node.position with
  | some p => p.endOffset.getD 0
  | none => 0

/-- `getBoldMarker` from `src/parser.ts`: the two-character bold marker
(`**` or `__`) read from the source text at `pos`. -/
def getBoldMarker (text : List Char) (pos : Nat) : Option (List Char) :=
  if pos + 2 ≤ text.length then
    match text.get? pos, text.get? (pos + 1) with
    | some c1, some c2 =>
      if c1 = '*' && c2 = '*' then some ['*', '*']
      else if c1 = '_' && c2 = '_' then some ['_', '_']
      else none
    | _, _ => none
  else none

/-- `getItalicMarker` from `src/parser.ts`: the one-character italic marker
(`*` or `_`) read from the source text at `pos`. -/
def getItalicMarker (text : List Char) (pos : Nat) : Option (List Char) :=
  if pos + 1 ≤ text.length then
    match text.get? pos with
    | some c =>
      if c = '*' then some ['*']
      else if c = '_' then some ['_']
      else none
    | none => none
  else none

/-- `addMarkerDecorations` from `src/parser.ts`: hide the opening marker,
style the content when non-empty, hide the closing marker.  The content
end is JavaScript integer subtraction, hence `Int`. -/
def addMarkerDecorations (start stop markerLength : Nat)
    (contentType : DecorationType) : List DecorationRange :=
  let contentStart : Int := (start : Int) + markerLength
  let contentEnd : Int := (stop : Int) - markerLength
  [⟨start, contentStart, .hide, none, none⟩] ++
  (if contentStart < contentEnd then
    [⟨contentStart, contentEnd, contentType, none, none⟩] else []) ++
  [⟨contentEnd, stop, .hide, none, none⟩]

/-- Decoration type `heading1`..`heading6` for a marker run length; remark
headings have depth 1–6 (for longer runs the TypeScript template string
would leave the closed enumeration, modelled here by the generic kind). -/
def headingTypeOf : Nat → DecorationType
  | 1 => .heading1
  | 2 => .heading2
  | 3 => .heading3
  | 4 => .heading4
  | 5 => .heading5
  | 6 => .heading6
  | _ => .heading

/-- The trailing-whitespace trim loop of `processHeading`
(`while (contentEnd > hideEnd && /\s/.test(text[contentEnd-1])) contentEnd--`),
run with budget `contentEnd - hideEnd`. -/
def trimEndAux (text : List Char) : Nat → Nat → Nat
  | 0, ce => ce
  | n + 1, ce =>
    if (match text.get? (ce - 1) with
        | some c => isJsWhitespace c
        | none => false) then
      trimEndAux text n (ce - 1)
    else ce

/-- The character test `text[pos] === '#'` of the heading marker loop. -/
def isHashChar (c : Char) : Bool := c = '#'

/-- The character test `text[pos] === '`'` of the inline-code marker loop. -/
def isBacktickChar (c : Char) : Bool := c = '`'

/-- `processHeading` from `src/parser.ts`. -/
def processHeading (text : List Char) (node : MdNode) : List DecorationRange :=
  if hasValidPosition node then
    let start := startOff node
    let stop := endOff node
    let markerLength := countRun isHashChar text start stop
    if markerLength = 0 then []
    else
      let headingType := headingTypeOf markerLength
      let contentStart := start + markerLength
      let whitespaceLength := countRun isJsWhitespace text contentStart stop
      let hideEnd := contentStart + whitespaceLength
      let contentEnd := trimEndAux text (stop - hideEnd) stop
      [⟨start, hideEnd, .hide, none, none⟩] ++
      (if hideEnd < contentEnd then
        [⟨hideEnd, contentEnd, headingType, none, none⟩,
         ⟨hideEnd, contentEnd, .heading, none, none⟩]
      else [])
  else []

/-- `processStrong` from `src/parser.ts`. -/
def processStrong (text : List Char) (node : MdNode) (ancestors : List MdNode) :
    List DecorationRange :=
  if hasValidPosition node then
    let start := startOff node
    let stop := endOff node
    match getBoldMarker text start with
    | none => []
    | some marker =>
      let isBoldItalic := ancestors.any (fun a => a.kind == NodeKind.emphasis)
      let contentType : DecorationType := if isBoldItalic then .boldItalic else .bold
      addMarkerDecorations start stop marker.length contentType
  else []

/-- The `***text***` skip test of `processEmphasis`: the nearest `strong`
ancestor's offsets (with the JavaScript `?? -1` defaults for missing
offsets) enclose this emphasis node's offsets at distance exactly 2 on
both sides. -/
def emphasisSkip (start stop : Nat) (ancestors : List MdNode) : Bool :=
  match ancestors.find? (fun a => a.kind == NodeKind.strong) with
  | some parentStrong =>
    match parentStrong.position with
    | some p =>
      let strongStart : Int := match p.startOffset with
        | some v => (v : Int)
        | none => -1
      let strongEnd : Int := match p.endOffset with
        | some v => (v : Int)
        | none => -1
      (start : Int) = strongStart + 2 && (stop : Int) = strongEnd - 2
    | none => false
  | none => false

/-- `processEmphasis` from `src/parser.ts`, including the `***text***`
skip: when the skip test holds nothing is emitted (the `strong` handler
already produced the single `boldItalic` decoration for the span). -/
def processEmphasis (text : List Char) (node : MdNode) (ancestors : List MdNode) :
    List DecorationRange :=
  if hasValidPosition node then
    let start := startOff node
    let stop := endOff node
    match getItalicMarker text start with
    | none => []
    | some marker =>
      if emphasisSkip start stop ancestors then []
      else
        let isBoldItalic := ancestors.any (fun a => a.kind == NodeKind.strong)
        let contentType : DecorationType := if isBoldItalic then .boldItalic else .italic
        addMarkerDecorations start stop marker.length contentType
  else []

/-- `processStrikethrough` from `src/parser.ts`: fixed `~~` markers. -/
def processStrikethrough (node : MdNode) : List DecorationRange :=
  if hasValidPosition node then
    addMarkerDecorations (startOff node) (endOff node) 2 .strikethrough
  else []

/-- `processInlineCode` from `src/parser.ts`: marker length is the run of
backticks at the node start. -/
def processInlineCode (text : List Char) (node : MdNode) : List DecorationRange :=
  if hasValidPosition node then
    let start := startOff node
    let stop := endOff node
    let markerLength := countRun isBacktickChar text start stop
    if markerLength = 0 then []
    else addMarkerDecorations start stop markerLength .code
  else []

/-- The triple-backtick fence pattern. -/
def fencePat : List Char := ['`', '`', '`']

/-- `processCodeBlock` from `src/parser.ts`. -/
def processCodeBlock (text : List Char) (node : MdNode) : List DecorationRange :=
  if hasValidPosition node then
    let start := startOff node
    let stop := endOff node
    match indexOfSubFrom text fencePat start with
    | none => []
    | some fenceStart =>
      match lastIndexOfSub text fencePat stop with
      | none => []
      | some closingFence =>
        if closingFence ≤ fenceStart then []
        else
          let openingLineEnd := indexOfFrom text '\n' fenceStart
          let openingEnd :=
            match openingLineEnd with
            | some ole => if ole < closingFence then ole + 1 else fenceStart + 3
            | none => fenceStart + 3
          let closingFenceEnd := closingFence + 3
          let closingLineEnd := indexOfFrom text '\n' closingFence
          let closingEnd :=
            match closingLineEnd with
            | some cle => cle + 1
            | none => stop
          [⟨fenceStart, closingFenceEnd, .codeBlock, none, none⟩,
           ⟨fenceStart, openingEnd, .hide, none, none⟩,
           ⟨closingFence, closingEnd, .hide, none, none⟩]
  else []

/-- `processLink` from `src/parser.ts`. -/
def processLink (text : List Char) (node : MdNode) : List DecorationRange :=
  if hasValidPosition node then
    let start := startOff node
    let stop := endOff node
    match indexOfFrom text '[' start with
    | none => []
    | some bracketStart =>
      match indexOfFrom text ']' bracketStart with
      | none => []
      | some bracketEnd =>
        let contentStart := bracketStart + 1
        let url := (node.url).getD []
        [⟨bracketStart, bracketStart + 1, .hide, none, none⟩] ++
        (if contentStart < bracketEnd then
          [⟨contentStart, bracketEnd, .link, some url, none⟩] else []) ++
        [⟨bracketEnd, bracketEnd + 1, .hide, none, none⟩] ++
        (match indexOfFrom text '(' bracketEnd with
         | some parenStart =>
           if parenStart = bracketEnd + 1 then
             [⟨parenStart, parenStart + 1, .hide, none, none⟩] ++
             (match indexOfFrom text ')' (parenStart + 1) with
              | some parenEnd =>
                if parenEnd ≤ stop then
                  (if parenStart + 1 < parenEnd then
                    [⟨parenStart + 1, parenEnd, .hide, none, none⟩] else []) ++
                  [⟨parenEnd, parenEnd + 1, .hide, none, none⟩]
                else []
              | none => [])
           else []
         | none => [])
  else []

/-- `processImage` from `src/parser.ts`.  Unlike `processLink`, the alt
text range is emitted even when empty (`altStart <= bracketEnd`), and the
closing paren requires `parenEnd < end` strictly. -/
def processImage (text : List Char) (node : MdNode) : List DecorationRange :=
  if hasValidPosition node then
    let start := startOff node
    let stop := endOff node
    match indexOfSubFrom text ['!', '['] start with
    | none => []
    | some exclamationStart =>
      if exclamationStart > start then []
      else
        let altStart := exclamationStart + 2
        match indexOfFrom text ']' altStart with
        | none => []
        | some bracketEnd =>
          [⟨exclamationStart, exclamationStart + 2, .hide, none, none⟩] ++
          (if altStart ≤ bracketEnd then
            [⟨altStart, bracketEnd, .image, none, none⟩] else []) ++
          [⟨bracketEnd, bracketEnd + 1, .hide, none, none⟩] ++
          (match indexOfFrom text '(' bracketEnd with
           | some parenStart =>
             if parenStart = bracketEnd + 1 ||
                (parenStart > bracketEnd + 1 &&
                 ((text.drop (bracketEnd + 1)).take (parenStart - (bracketEnd + 1))).all
                   isJsWhitespace) then
               [⟨parenStart, parenStart + 1, .hide, none, none⟩] ++
               (match indexOfFrom text ')' (parenStart + 1) with
                | some parenEnd =>
                  if parenEnd < stop then
                    [⟨parenEnd, parenEnd + 1, .hide, none, none⟩]
                  else []
                | none => [])
             else []
           | none => [])
  else []

/-- The marker test of `processBlockquote`:
`beforeGt.trim().length === 0 || /^[\s>]*$/.test(beforeGt)`. -/
def bqMarkerOk (beforeGt : List Char) : Bool :=
  beforeGt.all isJsWhitespace || beforeGt.all (fun c => isJsWhitespace c || c = '>')

/-- The inner loop of `processBlockquote` over one physical line: scan for
`>` characters before `actualLineEnd`, skipping already-processed
positions, and emit a one-character `blockquote` range for each `>`
preceded only by whitespace and `>` characters.  `fuel` bounds the number
of iterations; since `searchStart` strictly increases each iteration, any
fuel `≥ actualLineEnd - searchStart` gives the exact loop semantics. -/
def bqLine (text : List Char) (lineStart actualLineEnd : Nat) :
    Nat → Nat → List Nat → (List DecorationRange × List Nat)
  | 0, _, processed => ([], processed)
  | fuel + 1, searchStart, processed =>
    if searchStart < actualLineEnd then
      match indexOfFrom text '>' searchStart with
      | none => ([], processed)
      | some gtIndex =>
        if gtIndex ≥ actualLineEnd then ([], processed)
        else if processed.contains gtIndex then
          bqLine text lineStart actualLineEnd fuel (gtIndex + 1) processed
        else
          let beforeGt := (text.drop lineStart).take (gtIndex - lineStart)
          if bqMarkerOk beforeGt then
            let r := bqLine text lineStart actualLineEnd fuel (gtIndex + 1)
              (gtIndex :: processed)
            (⟨gtIndex, gtIndex + 1, .blockquote, none, none⟩ :: r.1, r.2)
          else bqLine text lineStart actualLineEnd fuel (gtIndex + 1) processed
    else ([], processed)

/-- The outer line loop of `processBlockquote`.  `fuel` bounds the number
of line iterations; `pos` strictly increases each iteration, so any fuel
`≥ stop - pos` gives the exact loop semantics. -/
def bqLines (text : List Char) (stop : Nat) :
    Nat → Nat → List Nat → (List DecorationRange × List Nat)
  | 0, _, processed => ([], processed)
  | fuel + 1, pos, processed =>
    if pos < stop then
      let lineStart := if pos = 0 then 0 else
        match lastIndexOfSub text ['\n'] (pos - 1) with
        | some i => i + 1
        | none => 0
      let actualLineEnd := match indexOfFrom text '\n' lineStart with
        | none => stop
        | some le => min le stop
      let inner := bqLine text lineStart actualLineEnd (actualLineEnd - lineStart)
        lineStart processed
      match indexOfFrom text '\n' pos with
      | none => inner
      | some nextLine =>
        if nextLine ≥ stop then inner
        else
          let outer := bqLines text stop fuel (nextLine + 1) inner.2
          (inner.1 ++ outer.1, outer.2)
    else ([], processed)

/-- `processBlockquote` from `src/parser.ts`, threading the document-wide
set of already-processed `>` positions. -/
def processBlockquote (text : List Char) (node : MdNode) (processed : List Nat) :
    (List DecorationRange × List Nat) :=
  if hasValidPosition node then
    let start := startOff node
    let stop := endOff node
    bqLines text stop (stop - start) start processed
  else ([], processed)

/-- The character class `[\s\-*+]` of the `processListItem` scan. -/
def listMarkerChar (c : Char) : Bool :=
  isJsWhitespace c || c = '-' || c = '*' || c = '+'

/-- The marker scan loop of `processListItem`; `fuel ≥ stop - markerEnd`
gives the exact loop semantics (the loop advances by one per iteration
until it finds a marker character or leaves the class). -/
def liScan (text : List Char) (stop : Nat) : Nat → Nat → List DecorationRange
  | 0, _ => []
  | fuel + 1, markerEnd =>
    if markerEnd < stop &&
       (match text.get? markerEnd with
        | some c => listMarkerChar c
        | none => false) then
      if (match text.get? markerEnd with
          | some c => c = '-' || c = '*' || c = '+'
          | none => false) then
        let markerStart := markerEnd
        let m1 := markerEnd + 1
        let m2 := if m1 < stop && text.get? m1 = some ' ' then m1 + 1 else m1
        if m2 + 2 < stop && text.get? m2 = some '[' then
          let checkChar := text.get? (m2 + 1)
          if (checkChar = some ' ' || checkChar = some 'x' || checkChar = some 'X') &&
             text.get? (m2 + 2) = some ']' then
            let isChecked := checkChar = some 'x' || checkChar = some 'X'
            [⟨markerStart, m2, .listItem, none, none⟩,
             ⟨m2, m2 + 3,
              if isChecked then .checkboxChecked else .checkboxUnchecked, none, none⟩]
          else [⟨markerStart, m2, .listItem, none, none⟩]
        else [⟨markerStart, m2, .listItem, none, none⟩]
      else liScan text stop fuel (markerEnd + 1)
    else []

/-- `processListItem` from `src/parser.ts`. -/
def processListItem (text : List Char) (node : MdNode) : List DecorationRange :=
  if hasValidPosition node then
    let start := startOff node
    let stop := endOff node
    liScan text stop (stop - start) start
  else []

/-- `processThematicBreak` from `src/parser.ts`: one `horizontalRule`
range over the whole token. -/
def processThematicBreak (node : MdNode) : List DecorationRange :=
  if hasValidPosition node then
    [⟨startOff node, endOff node, .horizontalRule, none, none⟩]
  else []

/-- State threaded through the AST visit: the decoration accumulator and
the document-wide set of processed blockquote marker positions. -/
structure ExtState where
  decorations : List DecorationRange
  processed : List Nat
  deriving DecidableEq, Repr

/-- The `switch (node.type)` dispatch of `processAST` in `src/parser.ts`. -/
def dispatchNode (text : List Char) (ancestors : List MdNode) (node : MdNode)
    (st : ExtState) : ExtState :=
  match node.kind with
  | .heading => { st with decorations := st.decorations ++ processHeading text node }
  | .strong => { st with decorations := st.decorations ++ processStrong text node ancestors }
  | .emphasis =>
    { st with decorations := st.decorations ++ processEmphasis text node ancestors }
  | .delete => { st with decorations := st.decorations ++ processStrikethrough node }
  | .inlineCode => { st with decorations := st.decorations ++ processInlineCode text node }
  | .code => { st with decorations := st.decorations ++ processCodeBlock text node }
  | .link => { st with decorations := st.decorations ++ processLink text node }
  | .image => { st with decorations := st.decorations ++ processImage text node }
  | .blockquote =>
    let r := processBlockquote text node st.processed
    { decorations := st.decorations ++ r.1, processed := r.2 }
  | .listItem => { st with decorations := st.decorations ++ processListItem text node }
  | .thematicBreak =>
    { st with decorations := st.decorations ++ processThematicBreak node }
  | _ => st

mutual
/-- Preorder visit of one node (the `unist-util-visit` traversal of
`processAST`): dispatch on the node with its ancestor chain
(parent first), then visit the children with this node prepended. -/
def visitNode (text : List Char) (ancestors : List MdNode) :
    MdNode → ExtState → ExtState
  | .mk k p u cs, st =>
    visitForest text (.mk k p u cs :: ancestors) cs
      (dispatchNode text ancestors (.mk k p u cs) st)

/-- Preorder visit of a forest of siblings, left to right. -/
def visitForest (text : List Char) (ancestors : List MdNode) :
    MdForest → ExtState → ExtState
  | .nil, st => st
  | .cons n f, st => visitForest text ancestors f (visitNode text ancestors n st)
end

/-- `processAST` from `src/parser.ts`: visit the tree from the root with
an empty ancestor chain and an empty processed-position set. -/
def processAST (ast : MdNode) (text : List Char) : ExtState :=
  visitNode text [] ast ⟨[], []⟩

/-- The `![]` pattern of the empty-image-alt post-pass. -/
def emptyAltPat : List Char := ['!', '[', ']']

/-- The regex loop of `handleEmptyImageAlt`: find each `![]` occurrence
left to right (the regex `lastIndex` advances past each match), and for
matches not covered by an existing decoration append two hide ranges.
`fuel ≥ text.length + 1` gives the exact loop semantics (the search
position advances by 3 per match). -/
def emptyAltLoop (text : List Char) :
    Nat → Nat → List DecorationRange → List DecorationRange
  | 0, _, ds => ds
  | fuel + 1, searchPos, ds =>
    match indexOfSubFrom text emptyAltPat searchPos with
    | none => ds
    | some pos =>
      let isCovered := ds.any fun d => d.startPos ≤ (pos : Int) && (pos : Int) < d.endPos
      let ds' := if isCovered then ds
        else ds ++ [⟨pos, pos + 2, .hide, none, none⟩,
                    ⟨(pos : Int) + 2, (pos : Int) + 3, .hide, none, none⟩]
      emptyAltLoop text fuel (pos + 3) ds'

/-- `handleEmptyImageAlt` from `src/parser.ts`, with its early exit when
the text contains no `![` at all. -/
def handleEmptyImageAlt (text : List Char) (decorations : List DecorationRange) :
    List DecorationRange :=
  match indexOfSubFrom text ['!', '['] 0 with
  | none => decorations
  | some _ => emptyAltLoop text (text.length + 1) 0 decorations

/-- Stable insertion of a range into a list sorted by `startPos` (the
range goes after all elements with `startPos ≤` its own). -/
def insertByStart (d : DecorationRange) : List DecorationRange → List DecorationRange
  | [] => [d]
  | e :: es => if d.startPos < e.startPos then d :: e :: es else e :: insertByStart d es

/-- The final `decorations.sort((a, b) => a.startPos - b.startPos)` of
`extractDecorations`: a stable sort by `startPos` (left-to-right
insertion keeps ties in insertion order, as the JavaScript stable sort
does). -/
def sortByStart (l : List DecorationRange) : List DecorationRange :=
  l.foldl (fun acc d => insertByStart d acc) []

/-- The line-ending normalization step of `extractDecorations`, with its
`indexOf('\r')` fast path. -/
def normalizeInput (text : List Char) : List Char :=
  if text.contains '\r' then normalizeNewlines text else text

/-- The post-parse pipeline of `extractDecorations`: AST visit, empty-alt
post-pass, sort. -/
def extractFromAst (text : List Char) (ast : MdNode) : List DecorationRange :=
  sortByStart (handleEmptyImageAlt text (processAST ast text).decorations)

/-- `extractDecorations` from `src/parser.ts`, parameterized by the remark
parse function; `parse` returning `none` models the parser throwing, in
which case the ranges accumulated so far (none, since parsing comes
first) are returned by the catch handler. -/
def extractDecorations (parse : List Char → Option MdNode) (text : List Char) :
    List DecorationRange :=
  if text.isEmpty then []
  else
    let normalizedText := normalizeInput text
    match parse normalizedText with
    | none => []
    | some ast => extractFromAst normalizedText ast

/-- `CacheEntry` from `src/decorator.ts`. -/
structure CacheEntry where
  version : Nat
  decorations : List DecorationRange
  text : List Char
  lastAccessed : Nat
  deriving DecidableEq, Repr

/-- The decoration cache of `src/decorator.ts`: a JavaScript `Map` keyed
by document URI (modelled as an insertion-ordered association list, as
`Map` iteration is insertion-ordered) plus the LRU access counter. -/
structure DecorationCache where
  entries : List (String × CacheEntry)
  accessCounter : Nat
  deriving DecidableEq, Repr

/-- `maxCacheSize` from `src/decorator.ts`. -/
def maxCacheSize : Nat := 10

/-- `Map.get`: the value stored for the key. -/
def mapGet (k : String) : List (String × CacheEntry) → Option CacheEntry
  | [] => none
  | (k', v) :: rest => if k' = k then some v else mapGet k rest

/-- `Map.set`: replace in place if the key is present, append otherwise. -/
def mapSet (k : String) (v : CacheEntry) :
    List (String × CacheEntry) → List (String × CacheEntry)
  | [] => [(k, v)]
  | (k', v') :: rest => if k' = k then (k, v) :: rest else (k', v') :: mapSet k v rest

/-- `Map.delete`: remove the entry with the key. -/
def mapDelete (k : String) : List (String × CacheEntry) → List (String × CacheEntry)
  | [] => []
  | (k', v') :: rest => if k' = k then rest else (k', v') :: mapDelete k rest

/-- The scan of `evictLRU` in `src/decorator.ts`: track the key with the
strictly smallest `lastAccessed` seen so far (`none` models the initial
`Infinity` / `undefined`). -/
def findLRUAux : List (String × CacheEntry) → Option String → Option Nat → Option String
  | [], lruKey, _ => lruKey
  | (k, e) :: rest, lruKey, lruAccess =>
    if (match lruAccess with
        | none => true
        | some a => e.lastAccessed < a) then
      findLRUAux rest (some k) (some e.lastAccessed)
    else findLRUAux rest lruKey lruAccess

/-- `evictLRU` from `src/decorator.ts`.  The JavaScript `if (lruKey)`
guard is falsy for the empty string, hence the extra check. -/
def evictLRU (entries : List (String × CacheEntry)) : List (String × CacheEntry) :=
  match findLRUAux entries none none with
  | some lruKey => if lruKey = "" then entries else mapDelete lruKey entries
  | none => entries

/-- `getCachedDecorations` from `src/decorator.ts`: a hit only when an
entry exists and its stored version equals the document's version. -/
def getCachedDecorations (cache : DecorationCache) (docId : String) (version : Nat) :
    Option (List DecorationRange) :=
  match mapGet docId cache.entries with
  | none => none
  | some cached => if cached.version ≠ version then none else some cached.decorations

/-- `setCachedDecorations` from `src/decorator.ts`: evict the LRU entry
when the cache is full and the key is new, then store the entry with the
next logical access tick (`++this.accessCounter`). -/
def setCachedDecorations (cache : DecorationCache) (docId : String) (version : Nat)
    (decorations : List DecorationRange) (text : List Char) : DecorationCache :=
  let entries :=
    if maxCacheSize ≤ cache.entries.length && (mapGet docId cache.entries).isNone then
      evictLRU cache.entries
    else cache.entries
  let counter := cache.accessCounter + 1
  ⟨mapSet docId ⟨version, decorations, text, counter⟩ entries, counter⟩

/-- A VS Code `Position`. -/
structure Position where
  line : Nat
  character : Nat
  deriving DecidableEq, Repr

/-- A VS Code `Range` (`stop` models the `end` field). -/
structure Range where
  start : Position
  stop : Position
  deriving DecidableEq, Repr

/-- `Range.contains(position)`, as modelled by the repository's own VS
Code mock (`src/test/__mocks__/vscode.ts`): inclusive on both ends. -/
def Range.containsPos (r : Range) (p : Position) : Bool :=
  (r.start.line < p.line || (r.start.line = p.line && r.start.character ≤ p.character)) &&
  (r.stop.line > p.line || (r.stop.line = p.line && p.character ≤ r.stop.character))

/-- `Range.intersection(other)`, as modelled by the repository's VS Code
mock: coordinate-wise max of starts and min of ends, `none` when the
result would be inverted (touching ranges still intersect). -/
def Range.intersection (r o : Range) : Option Range :=
  let s : Position := ⟨max r.start.line o.start.line, max r.start.character o.start.character⟩
  let e : Position := ⟨min r.stop.line o.stop.line, min r.stop.character o.stop.character⟩
  if s.line > e.line || (s.line = e.line && s.character > e.character) then none
  else some ⟨s, e⟩

/-- A VS Code `Selection`, per the repository's mock: a range whose
`start` is the anchor and whose `end` is the active position. -/
structure Selection where
  anchor : Position
  active : Position
  deriving DecidableEq, Repr

/-- The selection viewed as a range (mock: `start = anchor`,
`end = active`). -/
def Selection.toRange (s : Selection) : Range := ⟨s.anchor, s.active⟩

/-- `Selection.isEmpty`: anchor and active coincide (a pure cursor). -/
def Selection.isEmpty (s : Selection) : Bool := decide (s.anchor = s.active)

/-- `document.positionAt(offset)` per the repository's mock:
`substring(0, offset).split('\n')` gives the line count and the length of
the trailing segment; JavaScript `substring` clamps the offset. -/
def positionAt (text : List Char) (offset : Int) : Position :=
  let pre := text.take offset.toNat
  ⟨pre.count '\n', (pre.reverse.takeWhile (fun c => c ≠ '\n')).length⟩

/-- `createRange` from `src/decorator.ts`: map both normalized offsets to
original-text offsets, then convert to positions.  The `Range | null`
shape is kept; the catch branch is unreachable here because the model's
`positionAt` is total. -/
def createRange (startPos endPos : Int) (originalText : List Char) : Option Range :=
  let mappedStart := mapNormalizedToOriginal startPos originalText
  let mappedEnd := mapNormalizedToOriginal endPos originalText
  some ⟨positionAt originalText mappedStart, positionAt originalText mappedEnd⟩

/-- `isRangeSelected` from `src/decorator.ts`: an empty selection whose
cursor lies inside the range, or a non-empty selection whose range
intersects it. -/
def isRangeSelected (range : Range) (selections : List Selection)
    (selectedRanges : List Range) : Bool :=
  selections.any (fun s => s.isEmpty && range.containsPos s.toRange.start) ||
  selectedRanges.any (fun sel => (range.intersection sel).isSome)

/-- The lines touched by one selection, `start.line` to `end.line`
inclusive (an inverted mock selection touches no lines, as in the
JavaScript `for` loop). -/
def selectionLines (s : Selection) : List Nat :=
  List.range' s.toRange.start.line (s.toRange.stop.line + 1 - s.toRange.start.line)

/-- The selected-lines set built at the top of `filterDecorations`. -/
def selectedLinesOf (selections : List Selection) : List Nat :=
  selections.foldl (fun acc s => acc ++ selectionLines s) []

/-- The non-empty selections kept for precise intersection checks. -/
def selectedRangesOf (selections : List Selection) : List Range :=
  (selections.filter (fun s => !s.isEmpty)).map Selection.toRange

/-- `isLineOfRangeSelected` from `src/decorator.ts`: some line spanned by
the range is in the selected-lines set. -/
def isLineOfRangeSelected (range : Range) (selectedLines : List Nat) : Bool :=
  if selectedLines.isEmpty then false
  else (List.range' range.start.line (range.stop.line + 1 - range.start.line)).any
    (fun l => selectedLines.contains l)

/-- One `Map` update of the grouping step of `filterDecorations`
(`filtered.get(type) || []`, push, `set`). -/
def groupAdd (ty : DecorationType) (r : Range) :
    List (DecorationType × List Range) → List (DecorationType × List Range)
  | [] => [(ty, [r])]
  | (t, rs) :: rest => if t = ty then (t, rs ++ [r]) :: rest else (t, rs) :: groupAdd ty r rest

/-- Lookup in the grouped output (`Map.get`, defaulting to no ranges). -/
def groupGet (ty : DecorationType) : List (DecorationType × List Range) → List Range
  | [] => []
  | (t, rs) :: rest => if t = ty then rs else groupGet ty rest

/-- `filterDecorations` from `src/decorator.ts`: suppress every decoration
whose converted range intersects a selection or spans a selected line,
and group the survivors by decoration type. -/
def filterDecorations (decorations : List DecorationRange) (originalText : List Char)
    (selections : List Selection) : List (DecorationType × List Range) :=
  let selectedLines := selectedLinesOf selections
  let selectedRanges := selectedRangesOf selections
  decorations.foldl (fun filtered d =>
    match createRange d.startPos d.endPos originalText with
    | none => filtered
    | some range =>
      if isRangeSelected range selections selectedRanges ||
         isLineOfRangeSelected range selectedLines then filtered
      else groupAdd d.type range filtered) []

/-- For a fenced-code node: the closing-fence search stays inside the
node's span (mdast code node spans include both fence lines). -/
def codeFenceOk (text : List Char) (e : Nat) : Bool :=
  match lastIndexOfSub text fencePat e with
  | some cf => cf + 3 ≤ e
  | none => true

/-- Position discipline of one node, as guaranteed by the remark parser:
offsets are ordered and within the text, and marker-bearing node kinds
are wide enough to contain their markers on both sides (a `strong` or
`delete` span contains two 2-character markers, an `emphasis` span two
1-character markers, a thematic break is non-empty, and a fenced-code
span contains its fences). -/
def validNodeB (text : List Char) (n : MdNode) : Bool :=
  match n.position with
  | some p =>
    match p.startOffset, p.endOffset with
    | some s, some e =>
      decide (s ≤ e) && decide (e ≤ text.length) &&
      (n.kind != NodeKind.strong || decide (s + 4 ≤ e)) &&
      (n.kind != NodeKind.delete || decide (s + 4 ≤ e)) &&
      (n.kind != NodeKind.emphasis || decide (s + 2 ≤ e)) &&
      (n.kind != NodeKind.thematicBreak || decide (s < e)) &&
      (n.kind != NodeKind.code || codeFenceOk text e)
    | _, _ => true
  | none => true

mutual
/-- `validNodeB` for every node of a tree. -/
def validTreeB (text : List Char) : MdNode → Bool
  | .mk k p u cs => validNodeB text (.mk k p u cs) && validForestB text cs

/-- `validTreeB` for every tree of a forest. -/
def validForestB (text : List Char) : MdForest → Bool
  | .nil => true
  | .cons n f => validTreeB text n && validForestB text f
end

/-! ### Concrete inputs and the remark trees for them

The remark parser is a black-box dependency; the trees below are its
outputs for the scenario inputs, as fixed by CommonMark and reflected in
the repository's parser test suite (`src/parser/__tests__`). -/

/-- The input `"# H1"`. -/
def h1Text : List Char := ['#', ' ', 'H', '1']

/-- The heading node of the remark tree for `"# H1"`. -/
def astH1Heading : MdNode :=
  .mk .heading (some ⟨some 0, some 4⟩) none
    (.cons (.mk .text (some ⟨some 2, some 4⟩) none .nil) .nil)

/-- Remark tree for `"# H1"`: a root containing a depth-1 heading over
`[0,4)` whose text child spans `[2,4)`. -/
def astH1 : MdNode :=
  .mk .root (some ⟨some 0, some 4⟩) none (.cons astH1Heading .nil)

/-- The remark parse function restricted to `"# H1"`. -/
def parseH1 : List Char → Option MdNode := fun _ => some astH1

/-- The input `"[text](url)"`. -/
def linkText : List Char := ['[', 't', 'e', 'x', 't', ']', '(', 'u', 'r', 'l', ')']

/-- Remark tree for `"[text](url)"`: root, paragraph over `[0,11)`, link
over `[0,11)` with url `"url"`, text child over `[1,5)`. -/
def astLink : MdNode :=
  .mk .root (some ⟨some 0, some 11⟩) none
    (.cons (.mk .paragraph (some ⟨some 0, some 11⟩) none
      (.cons (.mk .link (some ⟨some 0, some 11⟩) (some ['u', 'r', 'l'])
        (.cons (.mk .text (some ⟨some 1, some 5⟩) none .nil) .nil)) .nil)) .nil)

/-- The remark parse function restricted to `"[text](url)"`. -/
def parseLink : List Char → Option MdNode := fun _ => some astLink

/-- The input `"![](url)"` (image with empty alt text). -/
def imgEmptyAltText : List Char := ['!', '[', ']', '(', 'u', 'r', 'l', ')']

/-- Remark tree for `"![](url)"`: root, paragraph over `[0,8)`, image
node over `[0,8)` with url `"url"` and no children (empty alt). -/
def astImgEmptyAlt : MdNode :=
  .mk .root (some ⟨some 0, some 8⟩) none
    (.cons (.mk .paragraph (some ⟨some 0, some 8⟩) none
      (.cons (.mk .image (some ⟨some 0, some 8⟩) (some ['u', 'r', 'l']) .nil) .nil)) .nil)

/-- The remark parse function restricted to `"![](url)"`. -/
def parseImgEmptyAlt : List Char → Option MdNode := fun _ => some astImgEmptyAlt

/-! ### Basic properties of the text-search helpers -/

theorem matchesAt_length {pat l : List Char} (h : matchesAt pat l = true) :
    pat.length ≤ l.length := by
  induction pat generalizing l with
  | nil => simp
  | cons p ps ih =>
    cases l with
    | nil => simp [matchesAt] at h
    | cons c cs =>
      simp only [matchesAt, Bool.and_eq_true] at h
      simpa using ih h.2

theorem matchesAt_head {pat l : List Char} (h : matchesAt pat l = true)
    (hp : pat ≠ []) : l.get? 0 = pat.get? 0 := by
  cases pat with
  | nil => exact absurd rfl hp
  | cons p ps =>
    cases l with
    | nil => simp [matchesAt] at h
    | cons c cs =>
      simp only [matchesAt, Bool.and_eq_true, decide_eq_true_eq] at h
      simp [h.1]

theorem findSubAux_spec {pat : List Char} :
    ∀ l i j, findSubAux pat l i = some j →
      i ≤ j ∧ matchesAt pat (l.drop (j - i)) = true := by
  intro l
  induction l with
  | nil =>
    intro i j h
    simp only [findSubAux] at h
    split at h
    · rename_i hm
      cases h
      exact ⟨Nat.le_refl _, by simpa using hm⟩
    · cases h
  | cons c cs ih =>
    intro i j h
    simp only [findSubAux] at h
    split at h
    · rename_i hm
      cases h
      exact ⟨Nat.le_refl _, by simpa using hm⟩
    · obtain ⟨h1, h2⟩ := ih (i + 1) j h
      refine ⟨Nat.le_of_succ_le h1, ?_⟩
      have hj : j - i = (j - (i + 1)) + 1 := by omega
      rw [hj]
      simpa using h2

theorem indexOfSubFrom_spec {text pat : List Char} {s i : Nat}
    (h : indexOfSubFrom text pat s = some i) :
    s ≤ i ∧ matchesAt pat (text.drop i) = true := by
  unfold indexOfSubFrom at h
  cases hf : findSubAux pat (text.drop s) 0 with
  | none => rw [hf] at h; cases h
  | some j =>
    rw [hf] at h
    cases h
    obtain ⟨-, h2⟩ := findSubAux_spec _ 0 j hf
    constructor
    · exact Nat.le_add_right s j
    · rw [List.drop_drop] at h2
      simpa [Nat.add_comm] using h2

theorem indexOfSubFrom_add_length_le {text pat : List Char} {s i : Nat}
    (hp : pat ≠ []) (h : indexOfSubFrom text pat s = some i) :
    i + pat.length ≤ text.length := by
  obtain ⟨-, hm⟩ := indexOfSubFrom_spec h
  have hl := matchesAt_length hm
  rw [List.length_drop] at hl
  have hpat : 0 < pat.length := List.length_pos.mpr hp
  omega

theorem indexOfFrom_spec {text : List Char} {c : Char} {s i : Nat}
    (h : indexOfFrom text c s = some i) :
    s ≤ i ∧ i < text.length ∧ text.get? i = some c := by
  obtain ⟨h1, hm⟩ := @indexOfSubFrom_spec text [c] s i h
  have hlen := indexOfSubFrom_add_length_le (by simp) h
  simp only [List.length_cons, List.length_nil] at hlen
  refine ⟨h1, by omega, ?_⟩
  have hh := matchesAt_head hm (by simp)
  rw [List.get?_drop] at hh
  simpa using hh

theorem lastSubAux_spec {pat : List Char} {limit : Nat} :
    ∀ l i best j, lastSubAux pat limit l i best = some j →
      best = some j ∨ (i ≤ j ∧ j ≤ limit ∧ matchesAt pat (l.drop (j - i)) = true) := by
  intro l
  induction l with
  | nil =>
    intro i best j h
    simp only [lastSubAux] at h
    split at h
    · rename_i hm
      cases h
      simp only [Bool.and_eq_true, decide_eq_true_eq] at hm
      exact Or.inr ⟨Nat.le_refl _, hm.1, by simpa using hm.2⟩
    · exact Or.inl h
  | cons c cs ih =>
    intro i best j h
    simp only [lastSubAux] at h
    rcases ih (i + 1) _ j h with h' | ⟨h1, h2, h3⟩
    · split at h'
      · rename_i hm
        cases h'
        simp only [Bool.and_eq_true, decide_eq_true_eq] at hm
        exact Or.inr ⟨Nat.le_refl _, hm.1, by simpa using hm.2⟩
      · exact Or.inl h'
    · refine Or.inr ⟨Nat.le_of_succ_le h1, h2, ?_⟩
      have hj : j - i = (j - (i + 1)) + 1 := by omega
      rw [hj]
      simpa using h3

theorem lastIndexOfSub_spec {text pat : List Char} {f j : Nat}
    (h : lastIndexOfSub text pat f = some j) :
    j ≤ f ∧ matchesAt pat (text.drop j) = true := by
  rcases lastSubAux_spec text 0 none j h with h' | ⟨-, h2, h3⟩
  · cases h'
  · exact ⟨h2, by simpa using h3⟩

theorem lastIndexOfSub_add_length_le {text pat : List Char} {f j : Nat}
    (hp : pat ≠ []) (h : lastIndexOfSub text pat f = some j) :
    j + pat.length ≤ text.length := by
  obtain ⟨-, hm⟩ := lastIndexOfSub_spec h
  have hl := matchesAt_length hm
  rw [List.length_drop] at hl
  have hpat : 0 < pat.length := List.length_pos.mpr hp
  omega

theorem countRunAux_le {p : Char → Bool} : ∀ l n, countRunAux p l n ≤ n := by
  intro l
  induction l with
  | nil => intro n; cases n <;> simp [countRunAux]
  | cons c cs ih =>
    intro n
    cases n with
    | zero => simp [countRunAux]
    | succ m =>
      simp only [countRunAux]
      split
      · exact Nat.succ_le_succ (ih m)
      · exact Nat.zero_le _

theorem countRun_le (p : Char → Bool) (text : List Char) (pos stop : Nat) :
    countRun p text pos stop ≤ stop - pos :=
  countRunAux_le _ _

theorem trimEndAux_le (text : List Char) : ∀ n ce, trimEndAux text n ce ≤ ce := by
  intro n
  induction n with
  | zero => intro ce; simp [trimEndAux]
  | succ m ih =>
    intro ce
    simp only [trimEndAux]
    split
    · exact Nat.le_trans (ih (ce - 1)) (Nat.sub_le _ _)
    · exact Nat.le_refl _

theorem trimEndAux_ge (text : List Char) : ∀ n ce, ce - n ≤ trimEndAux text n ce := by
  intro n
  induction n with
  | zero => intro ce; simp [trimEndAux]
  | succ m ih =>
    intro ce
    simp only [trimEndAux]
    split
    · have := ih (ce - 1)
      omega
    · omega

/-! ### The range-bounds invariant -/

/-- Bounds invariant for one decoration range relative to the normalized
text length: non-negative, ordered, within the text, and zero-width only
for the image alt-text range. -/
def rangeOk (len : Nat) (d : DecorationRange) : Prop :=
  0 ≤ d.startPos ∧ d.startPos ≤ d.endPos ∧ d.endPos ≤ (len : Int) ∧
  (d.type ≠ .image → d.startPos < d.endPos)

theorem addMarkerDecorations_rangeOk {start stop markerLength : Nat} {len : Nat}
    {ty : DecorationType} (hml : 1 ≤ markerLength) (hse : start + markerLength ≤ stop)
    (hlen : stop ≤ len) :
    ∀ d ∈ addMarkerDecorations start stop markerLength ty, rangeOk len d := by
  intro d hd
  simp only [addMarkerDecorations, List.mem_append, List.mem_singleton] at hd
  rcases hd with (hd | hd) | hd
  · subst hd
    simp only [rangeOk]
    refine ⟨by omega, by omega, by omega, fun _ => by omega⟩
  · split at hd
    · rename_i hcc
      simp only [List.mem_singleton] at hd
      subst hd
      simp only [rangeOk]
      refine ⟨by omega, by omega, by omega, fun _ => by omega⟩
    · simp at hd
  · subst hd
    simp only [rangeOk]
    refine ⟨by omega, by omega, by omega, fun _ => by omega⟩

theorem getBoldMarker_length {text : List Char} {pos : Nat} {m : List Char}
    (h : getBoldMarker text pos = some m) : m.length = 2 := by
  unfold getBoldMarker at h
  split at h
  · split at h
    · split at h
      · cases h; rfl
      · split at h
        · cases h; rfl
        · cases h
    · cases h
  · cases h

theorem getItalicMarker_length {text : List Char} {pos : Nat} {m : List Char}
    (h : getItalicMarker text pos = some m) : m.length = 1 := by
  unfold getItalicMarker at h
  split at h
  · split at h
    · split at h
      · cases h; rfl
      · split at h
        · cases h; rfl
        · cases h
    · cases h
  · cases h

theorem hasValidPosition_of_offsets {node : MdNode} {s e : Nat}
    (hpos : node.position = some ⟨some s, some e⟩) : hasValidPosition node = true := by
  simp [hasValidPosition, hpos]

theorem startOff_of_offsets {node : MdNode} {s e : Nat}
    (hpos : node.position = some ⟨some s, some e⟩) : startOff node = s := by
  simp [startOff, hpos]

theorem endOff_of_offsets {node : MdNode} {s e : Nat}
    (hpos : node.position = some ⟨some s, some e⟩) : endOff node = e := by
  simp [endOff, hpos]

theorem processHeading_rangeOk {text : List Char} {node : MdNode} {s e : Nat}
    (hpos : node.position = some ⟨some s, some e⟩) (hlen : e ≤ text.length) :
    ∀ d ∈ processHeading text node, rangeOk text.length d := by
  intro d hd
  simp only [processHeading, hasValidPosition_of_offsets hpos, if_true,
    startOff_of_offsets hpos, endOff_of_offsets hpos] at hd
  split at hd
  · simp at hd
  · rename_i hm0
    have hm1 : countRun isHashChar text s e ≤ e - s := countRun_le _ _ _ _
    have hw1 : countRun isJsWhitespace text (s + countRun isHashChar text s e) e ≤
        e - (s + countRun isHashChar text s e) := countRun_le _ _ _ _
    have hce1 := trimEndAux_le text
      (e - (s + countRun isHashChar text s e + countRun isJsWhitespace text
        (s + countRun isHashChar text s e) e)) e
    have hce2 := trimEndAux_ge text
      (e - (s + countRun isHashChar text s e + countRun isJsWhitespace text
        (s + countRun isHashChar text s e) e)) e
    rw [List.mem_append] at hd
    rcases hd with hd | hd
    · simp only [List.mem_singleton] at hd
      subst hd
      simp only [rangeOk]
      refine ⟨by omega, by omega, by omega, fun _ => by omega⟩
    · split at hd
      · rename_i hcc
        simp only [List.mem_cons, List.mem_singleton, List.not_mem_nil, or_false] at hd
        rcases hd with hd | hd <;> subst hd <;>
          exact ⟨by simp only; omega, by simp only; omega, by simp only; omega,
            fun _ => by simp only; omega⟩
      · simp at hd

theorem processStrong_rangeOk {text : List Char} {node : MdNode} {anc : List MdNode}
    {s e : Nat} (hpos : node.position = some ⟨some s, some e⟩)
    (hse : s + 4 ≤ e) (hlen : e ≤ text.length) :
    ∀ d ∈ processStrong text node anc, rangeOk text.length d := by
  intro d hd
  simp only [processStrong, hasValidPosition_of_offsets hpos, if_true,
    startOff_of_offsets hpos, endOff_of_offsets hpos] at hd
  cases hbm : getBoldMarker text s with
  | none => rw [hbm] at hd; simp at hd
  | some marker =>
    rw [hbm] at hd
    have hml := getBoldMarker_length hbm
    exact addMarkerDecorations_rangeOk (by omega) (by omega) hlen d hd

theorem processEmphasis_rangeOk {text : List Char} {node : MdNode} {anc : List MdNode}
    {s e : Nat} (hpos : node.position = some ⟨some s, some e⟩)
    (hse : s + 2 ≤ e) (hlen : e ≤ text.length) :
    ∀ d ∈ processEmphasis text node anc, rangeOk text.length d := by
  intro d hd
  simp only [processEmphasis, hasValidPosition_of_offsets hpos, if_true,
    startOff_of_offsets hpos, endOff_of_offsets hpos] at hd
  cases him : getItalicMarker text s with
  | none => rw [him] at hd; simp at hd
  | some marker =>
    rw [him] at hd
    have hml := getItalicMarker_length him
    cases hskip : emphasisSkip s e anc <;> rw [hskip] at hd
    · exact addMarkerDecorations_rangeOk (by omega) (by omega) hlen d hd
    · simp at hd

theorem processStrikethrough_rangeOk {node : MdNode} {s e : Nat} {len : Nat}
    (hpos : node.position = some ⟨some s, some e⟩)
    (hse : s + 4 ≤ e) (hlen : e ≤ len) :
    ∀ d ∈ processStrikethrough node, rangeOk len d := by
  intro d hd
  simp only [processStrikethrough, hasValidPosition_of_offsets hpos, if_true,
    startOff_of_offsets hpos, endOff_of_offsets hpos] at hd
  exact addMarkerDecorations_rangeOk (by omega) (by omega) hlen d hd

theorem processInlineCode_rangeOk {text : List Char} {node : MdNode} {s e : Nat}
    (hpos : node.position = some ⟨some s, some e⟩) (hlen : e ≤ text.length) :
    ∀ d ∈ processInlineCode text node, rangeOk text.length d := by
  intro d hd
  simp only [processInlineCode, hasValidPosition_of_offsets hpos, if_true,
    startOff_of_offsets hpos, endOff_of_offsets hpos] at hd
  split at hd
  · simp at hd
  · rename_i hm0
    have hm1 : countRun isBacktickChar text s e ≤ e - s := countRun_le _ _ _ _
    exact addMarkerDecorations_rangeOk (by omega) (by omega) hlen d hd

theorem processCodeBlock_rangeOk {text : List Char} {node : MdNode} {s e : Nat}
    (hpos : node.position = some ⟨some s, some e⟩) (hlen : e ≤ text.length)
    (hfence : codeFenceOk text e = true) :
    ∀ d ∈ processCodeBlock text node, rangeOk text.length d := by
  intro d hd
  simp only [processCodeBlock, hasValidPosition_of_offsets hpos, if_true,
    startOff_of_offsets hpos, endOff_of_offsets hpos] at hd
  cases hfs : indexOfSubFrom text fencePat s with
  | none => rw [hfs] at hd; simp at hd
  | some fenceStart =>
    rw [hfs] at hd
    cases hcf : lastIndexOfSub text fencePat e with
    | none => rw [hcf] at hd; simp at hd
    | some closingFence =>
      rw [hcf] at hd
      dsimp only at hd
      have hfs1 := indexOfSubFrom_add_length_le (by simp [fencePat]) hfs
      have hcf1 : closingFence + 3 ≤ e := by
        unfold codeFenceOk at hfence
        rw [hcf] at hfence
        exact of_decide_eq_true hfence
      simp only [fencePat, List.length_cons, List.length_nil] at hfs1
      by_cases hcfs : closingFence ≤ fenceStart
      · rw [if_pos hcfs] at hd
        simp at hd
      · rw [if_neg hcfs] at hd
        simp only [List.mem_cons, List.mem_singleton, List.not_mem_nil, or_false] at hd
        rcases hd with hd | hd | hd
        · subst hd
          exact ⟨by simp only; omega, by simp only; omega, by simp only; omega,
            fun _ => by simp only; omega⟩
        · subst hd
          rcases hole : indexOfFrom text '\n' fenceStart with _ | ole
          · dsimp only
            exact ⟨by simp only; omega, by simp only; omega, by simp only; omega,
              fun _ => by simp only; omega⟩
          · obtain ⟨ho1, ho2, -⟩ := indexOfFrom_spec hole
            dsimp only
            split
            · exact ⟨by simp only; omega, by simp only; omega, by simp only; omega,
                fun _ => by simp only; omega⟩
            · exact ⟨by simp only; omega, by simp only; omega, by simp only; omega,
                fun _ => by simp only; omega⟩
        · subst hd
          rcases hcle : indexOfFrom text '\n' closingFence with _ | cle
          · dsimp only
            exact ⟨by simp only; omega, by simp only; omega, by simp only; omega,
              fun _ => by simp only; omega⟩
          · obtain ⟨hc1, hc2, -⟩ := indexOfFrom_spec hcle
            dsimp only
            exact ⟨by simp only; omega, by simp only; omega, by simp only; omega,
              fun _ => by simp only; omega⟩

theorem processLink_rangeOk {text : List Char} {node : MdNode} :
    ∀ d ∈ processLink text node, rangeOk text.length d := by
  intro d hd
  simp only [processLink] at hd
  split at hd
  case isFalse => simp at hd
  case isTrue hvp =>
    cases hbs : indexOfFrom text '[' (startOff node) with
    | none => rw [hbs] at hd; simp at hd
    | some bracketStart =>
      rw [hbs] at hd
      dsimp only at hd
      cases hbe : indexOfFrom text ']' bracketStart with
      | none => rw [hbe] at hd; simp at hd
      | some bracketEnd =>
        rw [hbe] at hd
        dsimp only at hd
        obtain ⟨-, hbs2, -⟩ := indexOfFrom_spec hbs
        obtain ⟨-, hbe2, -⟩ := indexOfFrom_spec hbe
        simp only [List.mem_append, List.mem_singleton] at hd
        rcases hd with ((hd | hd) | hd) | hd
        · subst hd
          exact ⟨by simp only; omega, by simp only; omega, by simp only; omega,
            fun _ => by simp only; omega⟩
        · split at hd
          · rename_i hcb
            simp only [List.mem_singleton] at hd
            subst hd
            exact ⟨by simp only; omega, by simp only; omega, by simp only; omega,
              fun _ => by simp only; omega⟩
          · simp at hd
        · subst hd
          exact ⟨by simp only; omega, by simp only; omega, by simp only; omega,
            fun _ => by simp only; omega⟩
        · cases hps : indexOfFrom text '(' bracketEnd with
          | none => rw [hps] at hd; simp at hd
          | some parenStart =>
            rw [hps] at hd
            dsimp only at hd
            obtain ⟨-, hps2, -⟩ := indexOfFrom_spec hps
            split at hd
            · simp only [List.mem_append, List.mem_singleton] at hd
              rcases hd with hd | hd
              · subst hd
                exact ⟨by simp only; omega, by simp only; omega, by simp only; omega,
                  fun _ => by simp only; omega⟩
              · cases hpe : indexOfFrom text ')' (parenStart + 1) with
                | none => rw [hpe] at hd; simp at hd
                | some parenEnd =>
                  rw [hpe] at hd
                  dsimp only at hd
                  obtain ⟨hpe1, hpe2, -⟩ := indexOfFrom_spec hpe
                  split at hd
                  · simp only [List.mem_append, List.mem_singleton] at hd
                    rcases hd with hd | hd
                    · split at hd
                      · rename_i hup
                        simp only [List.mem_singleton] at hd
                        subst hd
                        exact ⟨by simp only; omega, by simp only; omega,
                          by simp only; omega, fun _ => by simp only; omega⟩
                      · simp at hd
                    · subst hd
                      exact ⟨by simp only; omega, by simp only; omega,
                        by simp only; omega, fun _ => by simp only; omega⟩
                  · simp at hd
            · simp at hd

theorem processImage_rangeOk {text : List Char} {node : MdNode} :
    ∀ d ∈ processImage text node, rangeOk text.length d := by
  intro d hd
  simp only [processImage] at hd
  split at hd
  case isFalse => simp at hd
  case isTrue hvp =>
    cases hes : indexOfSubFrom text ['!', '['] (startOff node) with
    | none => rw [hes] at hd; simp at hd
    | some exclamationStart =>
      rw [hes] at hd
      dsimp only at hd
      have hes1 := indexOfSubFrom_add_length_le (by simp) hes
      simp only [List.length_cons, List.length_nil] at hes1
      split at hd
      · simp at hd
      · cases hbe : indexOfFrom text ']' (exclamationStart + 2) with
        | none => rw [hbe] at hd; simp at hd
        | some bracketEnd =>
          rw [hbe] at hd
          dsimp only at hd
          obtain ⟨hbe1, hbe2, -⟩ := indexOfFrom_spec hbe
          simp only [List.mem_append, List.mem_singleton] at hd
          rcases hd with ((hd | hd) | hd) | hd
          · subst hd
            exact ⟨by simp only; omega, by simp only; omega, by simp only; omega,
              fun _ => by simp only; omega⟩
          · rw [if_pos hbe1] at hd
            simp only [List.mem_singleton] at hd
            subst hd
            refine ⟨by simp only; omega, by simp only; omega, by simp only; omega,
              fun hty => absurd rfl hty⟩
          · subst hd
            exact ⟨by simp only; omega, by simp only; omega, by simp only; omega,
              fun _ => by simp only; omega⟩
          · cases hps : indexOfFrom text '(' bracketEnd with
            | none => rw [hps] at hd; simp at hd
            | some parenStart =>
              rw [hps] at hd
              dsimp only at hd
              obtain ⟨-, hps2, -⟩ := indexOfFrom_spec hps
              split at hd
              · simp only [List.mem_append, List.mem_singleton] at hd
                rcases hd with hd | hd
                · subst hd
                  exact ⟨by simp only; omega, by simp only; omega, by simp only; omega,
                    fun _ => by simp only; omega⟩
                · cases hpe : indexOfFrom text ')' (parenStart + 1) with
                  | none => rw [hpe] at hd; simp at hd
                  | some parenEnd =>
                    rw [hpe] at hd
                    dsimp only at hd
                    obtain ⟨-, hpe2, -⟩ := indexOfFrom_spec hpe
                    split at hd
                    · simp only [List.mem_singleton] at hd
                      subst hd
                      exact ⟨by simp only; omega, by simp only; omega,
                        by simp only; omega, fun _ => by simp only; omega⟩
                    · simp at hd
              · simp at hd

theorem bqLine_rangeOk {text : List Char} {lineStart actualLineEnd : Nat} {len : Nat}
    (hlen : text.length ≤ len) :
    ∀ fuel searchStart processed d,
      d ∈ (bqLine text lineStart actualLineEnd fuel searchStart processed).1 →
      rangeOk len d := by
  intro fuel searchStart processed
  induction fuel, searchStart, processed using bqLine.induct text lineStart actualLineEnd with
  | case1 ss processed =>
    intro d hd
    simp [bqLine] at hd
  | case2 fuel ss processed h1 h2 =>
    intro d hd
    simp [bqLine, h1, h2] at hd
  | case3 fuel ss processed h1 gt hgt hge =>
    intro d hd
    simp [bqLine, h1, hgt, hge] at hd
  | case4 fuel ss processed h1 gt hgt hge hcont ih =>
    intro d hd
    simp only [bqLine, h1, if_true, hgt, hge, hcont] at hd
    simp only [if_false, if_true, ite_true, ite_false] at hd
    exact ih d hd
  | case5 fuel ss processed h1 gt hgt hge hcont bg hmk ih =>
    intro d hd
    obtain ⟨-, hgt2, -⟩ := indexOfFrom_spec hgt
    have hmk' : bqMarkerOk ((text.drop lineStart).take (gt - lineStart)) = true := hmk
    simp only [bqLine, h1, if_true, hgt, hge, hcont, hmk'] at hd
    simp only [if_false, if_true, ite_true, ite_false, Bool.false_eq_true,
      List.mem_cons] at hd
    rcases hd with hd | hd
    · subst hd
      exact ⟨by simp only; omega, by simp only; omega, by simp only; omega,
        fun _ => by simp only; omega⟩
    · exact ih d hd
  | case6 fuel ss processed h1 gt hgt hge hcont bg hmk ih =>
    intro d hd
    have hmk' : ¬ bqMarkerOk ((text.drop lineStart).take (gt - lineStart)) = true := hmk
    simp only [bqLine, h1, if_true, hgt, hge, hcont, hmk'] at hd
    simp only [if_false, if_true, ite_true, ite_false, Bool.false_eq_true] at hd
    exact ih d hd
  | case7 fuel ss processed h1 =>
    intro d hd
    simp [bqLine, h1] at hd

theorem bqLines_rangeOk {text : List Char} {stop : Nat} {len : Nat}
    (hlen : text.length ≤ len) :
    ∀ fuel pos processed d,
      d ∈ (bqLines text stop fuel pos processed).1 → rangeOk len d := by
  intro fuel
  induction fuel with
  | zero => intro pos processed d hd; simp [bqLines] at hd
  | succ n ih =>
    intro pos processed d hd
    simp only [bqLines] at hd
    split at hd
    · cases hnl : indexOfFrom text '\n' pos with
      | none =>
        rw [hnl] at hd
        dsimp only at hd
        exact bqLine_rangeOk hlen _ _ _ d hd
      | some nextLine =>
        rw [hnl] at hd
        dsimp only at hd
        split at hd
        · exact bqLine_rangeOk hlen _ _ _ d hd
        · dsimp only at hd
          rw [List.mem_append] at hd
          rcases hd with hd | hd
          · exact bqLine_rangeOk hlen _ _ _ d hd
          · exact ih _ _ d hd
    · simp at hd

theorem processBlockquote_rangeOk {text : List Char} {node : MdNode}
    {processed : List Nat} :
    ∀ d ∈ (processBlockquote text node processed).1, rangeOk text.length d := by
  intro d hd
  unfold processBlockquote at hd
  split at hd
  · exact bqLines_rangeOk (Nat.le_refl _) _ _ _ d hd
  · simp at hd

theorem liScan_rangeOk {text : List Char} {stop : Nat} {len : Nat}
    (hstop : stop ≤ len) :
    ∀ fuel markerEnd d, d ∈ liScan text stop fuel markerEnd → rangeOk len d := by
  intro fuel
  induction fuel with
  | zero => intro me d hd; simp [liScan] at hd
  | succ n ih =>
    intro me d hd
    simp only [liScan] at hd
    by_cases hA : (me < stop &&
        (match text.get? me with
         | some c => listMarkerChar c
         | none => false)) = true
    case neg => rw [if_neg hA] at hd; simp at hd
    case pos =>
      rw [if_pos hA] at hd
      simp only [Bool.and_eq_true, decide_eq_true_eq] at hA
      by_cases hB : (match text.get? me with
          | some c => c = '-' || c = '*' || c = '+'
          | none => false) = true
      case neg => rw [if_neg hB] at hd; exact ih _ d hd
      case pos =>
        rw [if_pos hB] at hd
        by_cases hsp : (me + 1 < stop && text.get? (me + 1) = some ' ') = true
        · rw [if_pos hsp] at hd
          simp only [Bool.and_eq_true, decide_eq_true_eq] at hsp
          by_cases hC : (me + 1 + 1 + 2 < stop && text.get? (me + 1 + 1) = some '[') = true
          · rw [if_pos hC] at hd
            simp only [Bool.and_eq_true, decide_eq_true_eq] at hC
            by_cases hD : ((text.get? (me + 1 + 1 + 1) = some ' ' ||
                text.get? (me + 1 + 1 + 1) = some 'x' ||
                text.get? (me + 1 + 1 + 1) = some 'X') &&
                text.get? (me + 1 + 1 + 2) = some ']') = true
            · rw [if_pos hD] at hd
              simp only [List.mem_cons, List.mem_singleton, List.not_mem_nil,
                or_false] at hd
              rcases hd with hd | hd <;> subst hd
              · exact ⟨by simp only; omega, by simp only; omega, by simp only; omega,
                  fun _ => by simp only; omega⟩
              · split
                · exact ⟨by simp only; omega, by simp only; omega, by simp only; omega,
                    fun _ => by simp only; omega⟩
                · exact ⟨by simp only; omega, by simp only; omega, by simp only; omega,
                    fun _ => by simp only; omega⟩
            · rw [if_neg hD] at hd
              simp only [List.mem_singleton] at hd
              subst hd
              exact ⟨by simp only; omega, by simp only; omega, by simp only; omega,
                fun _ => by simp only; omega⟩
          · rw [if_neg hC] at hd
            simp only [List.mem_singleton] at hd
            subst hd
            exact ⟨by simp only; omega, by simp only; omega, by simp only; omega,
              fun _ => by simp only; omega⟩
        · rw [if_neg hsp] at hd
          by_cases hC : (me + 1 + 2 < stop && text.get? (me + 1) = some '[') = true
          · rw [if_pos hC] at hd
            simp only [Bool.and_eq_true, decide_eq_true_eq] at hC
            by_cases hD : ((text.get? (me + 1 + 1) = some ' ' ||
                text.get? (me + 1 + 1) = some 'x' ||
                text.get? (me + 1 + 1) = some 'X') &&
                text.get? (me + 1 + 2) = some ']') = true
            · rw [if_pos hD] at hd
              simp only [List.mem_cons, List.mem_singleton, List.not_mem_nil,
                or_false] at hd
              rcases hd with hd | hd <;> subst hd
              · exact ⟨by simp only; omega, by simp only; omega, by simp only; omega,
                  fun _ => by simp only; omega⟩
              · split
                · exact ⟨by simp only; omega, by simp only; omega, by simp only; omega,
                    fun _ => by simp only; omega⟩
                · exact ⟨by simp only; omega, by simp only; omega, by simp only; omega,
                    fun _ => by simp only; omega⟩
            · rw [if_neg hD] at hd
              simp only [List.mem_singleton] at hd
              subst hd
              exact ⟨by simp only; omega, by simp only; omega, by simp only; omega,
                fun _ => by simp only; omega⟩
          · rw [if_neg hC] at hd
            simp only [List.mem_singleton] at hd
            subst hd
            exact ⟨by simp only; omega, by simp only; omega, by simp only; omega,
              fun _ => by simp only; omega⟩

theorem processListItem_rangeOk {text : List Char} {node : MdNode} {s e : Nat}
    (hpos : node.position = some ⟨some s, some e⟩) (hlen : e ≤ text.length) :
    ∀ d ∈ processListItem text node, rangeOk text.length d := by
  intro d hd
  simp only [processListItem, hasValidPosition_of_offsets hpos, if_true,
    startOff_of_offsets hpos, endOff_of_offsets hpos] at hd
  exact liScan_rangeOk hlen _ _ d hd

theorem processThematicBreak_rangeOk {node : MdNode} {s e : Nat} {len : Nat}
    (hpos : node.position = some ⟨some s, some e⟩)
    (hse : s < e) (hlen : e ≤ len) :
    ∀ d ∈ processThematicBreak node, rangeOk len d := by
  intro d hd
  simp only [processThematicBreak, hasValidPosition_of_offsets hpos, if_true,
    startOff_of_offsets hpos, endOff_of_offsets hpos, List.mem_singleton] at hd
  subst hd
  exact ⟨by simp only; omega, by simp only; omega, by simp only; omega,
    fun _ => by simp only; omega⟩

theorem hasValidPosition_cases (node : MdNode) :
    hasValidPosition node = false ∨ ∃ s e, node.position = some ⟨some s, some e⟩ := by
  unfold hasValidPosition
  cases hp : node.position with
  | none => exact Or.inl rfl
  | some p =>
    cases hs : p.startOffset with
    | none => simp [hs]
    | some s =>
      cases he : p.endOffset with
      | none => simp [hs, he]
      | some e =>
        refine Or.inr ⟨s, e, ?_⟩
        cases p
        simp_all

theorem validNodeB_spec {text : List Char} {node : MdNode} {s e : Nat}
    (hv : validNodeB text node = true) (hpos : node.position = some ⟨some s, some e⟩) :
    s ≤ e ∧ e ≤ text.length ∧
    (node.kind = .strong → s + 4 ≤ e) ∧ (node.kind = .delete → s + 4 ≤ e) ∧
    (node.kind = .emphasis → s + 2 ≤ e) ∧ (node.kind = .thematicBreak → s < e) ∧
    (node.kind = .code → codeFenceOk text e = true) := by
  unfold validNodeB at hv
  rw [hpos] at hv
  dsimp only at hv
  simp only [Bool.and_eq_true, Bool.or_eq_true, decide_eq_true_eq, bne_iff_ne,
    ne_eq] at hv
  obtain ⟨⟨⟨⟨⟨⟨h1, h2⟩, h3⟩, h4⟩, h5⟩, h6⟩, h7⟩ := hv
  refine ⟨h1, h2, ?_, ?_, ?_, ?_, ?_⟩
  · exact fun hk => h3.resolve_left (by rw [hk]; decide)
  · exact fun hk => h4.resolve_left (by rw [hk]; decide)
  · exact fun hk => h5.resolve_left (by rw [hk]; decide)
  · exact fun hk => h6.resolve_left (by rw [hk]; decide)
  · exact fun hk => h7.resolve_left (by rw [hk]; decide)

theorem processHeading_rangeOk_total {text : List Char} {node : MdNode}
    (hv : validNodeB text node = true) :
    ∀ d ∈ processHeading text node, rangeOk text.length d := by
  rcases hasValidPosition_cases node with h | ⟨s, e, hpos⟩
  · intro d hd; simp [processHeading, h] at hd
  · exact processHeading_rangeOk hpos (validNodeB_spec hv hpos).2.1

theorem processStrong_rangeOk_total {text : List Char} {node : MdNode}
    {anc : List MdNode} (hk : node.kind = .strong) (hv : validNodeB text node = true) :
    ∀ d ∈ processStrong text node anc, rangeOk text.length d := by
  rcases hasValidPosition_cases node with h | ⟨s, e, hpos⟩
  · intro d hd; simp [processStrong, h] at hd
  · have hs := validNodeB_spec hv hpos
    exact processStrong_rangeOk hpos (hs.2.2.1 hk) hs.2.1

theorem processEmphasis_rangeOk_total {text : List Char} {node : MdNode}
    {anc : List MdNode} (hk : node.kind = .emphasis) (hv : validNodeB text node = true) :
    ∀ d ∈ processEmphasis text node anc, rangeOk text.length d := by
  rcases hasValidPosition_cases node with h | ⟨s, e, hpos⟩
  · intro d hd; simp [processEmphasis, h] at hd
  · have hs := validNodeB_spec hv hpos
    exact processEmphasis_rangeOk hpos (hs.2.2.2.2.1 hk) hs.2.1

theorem processStrikethrough_rangeOk_total {text : List Char} {node : MdNode}
    (hk : node.kind = .delete) (hv : validNodeB text node = true) :
    ∀ d ∈ processStrikethrough node, rangeOk text.length d := by
  rcases hasValidPosition_cases node with h | ⟨s, e, hpos⟩
  · intro d hd; simp [processStrikethrough, h] at hd
  · have hs := validNodeB_spec hv hpos
    exact processStrikethrough_rangeOk hpos (hs.2.2.2.1 hk) hs.2.1

theorem processInlineCode_rangeOk_total {text : List Char} {node : MdNode}
    (hv : validNodeB text node = true) :
    ∀ d ∈ processInlineCode text node, rangeOk text.length d := by
  rcases hasValidPosition_cases node with h | ⟨s, e, hpos⟩
  · intro d hd; simp [processInlineCode, h] at hd
  · exact processInlineCode_rangeOk hpos (validNodeB_spec hv hpos).2.1

theorem processCodeBlock_rangeOk_total {text : List Char} {node : MdNode}
    (hk : node.kind = .code) (hv : validNodeB text node = true) :
    ∀ d ∈ processCodeBlock text node, rangeOk text.length d := by
  rcases hasValidPosition_cases node with h | ⟨s, e, hpos⟩
  · intro d hd; simp [processCodeBlock, h] at hd
  · have hs := validNodeB_spec hv hpos
    exact processCodeBlock_rangeOk hpos hs.2.1 (hs.2.2.2.2.2.2 hk)

theorem processListItem_rangeOk_total {text : List Char} {node : MdNode}
    (hv : validNodeB text node = true) :
    ∀ d ∈ processListItem text node, rangeOk text.length d := by
  rcases hasValidPosition_cases node with h | ⟨s, e, hpos⟩
  · intro d hd; simp [processListItem, h] at hd
  · exact processListItem_rangeOk hpos (validNodeB_spec hv hpos).2.1

theorem processThematicBreak_rangeOk_total {text : List Char} {node : MdNode}
    (hk : node.kind = .thematicBreak) (hv : validNodeB text node = true) :
    ∀ d ∈ processThematicBreak node, rangeOk text.length d := by
  rcases hasValidPosition_cases node with h | ⟨s, e, hpos⟩
  · intro d hd; simp [processThematicBreak, h] at hd
  · have hs := validNodeB_spec hv hpos
    exact processThematicBreak_rangeOk hpos (hs.2.2.2.2.2.1 hk) hs.2.1

theorem dispatchNode_rangeOk {text : List Char} {anc : List MdNode} {node : MdNode}
    {st : ExtState} (hv : validNodeB text node = true)
    (hall : ∀ d ∈ st.decorations, rangeOk text.length d) :
    ∀ d ∈ (dispatchNode text anc node st).decorations, rangeOk text.length d := by
  intro d hd
  unfold dispatchNode at hd
  cases hk : node.kind <;> rw [hk] at hd <;> dsimp only at hd <;>
    try (rw [List.mem_append] at hd)
  case heading =>
    rcases hd with hd | hd
    · exact hall d hd
    · exact processHeading_rangeOk_total hv d hd
  case strong =>
    rcases hd with hd | hd
    · exact hall d hd
    · exact processStrong_rangeOk_total hk hv d hd
  case emphasis =>
    rcases hd with hd | hd
    · exact hall d hd
    · exact processEmphasis_rangeOk_total hk hv d hd
  case delete =>
    rcases hd with hd | hd
    · exact hall d hd
    · exact processStrikethrough_rangeOk_total hk hv d hd
  case inlineCode =>
    rcases hd with hd | hd
    · exact hall d hd
    · exact processInlineCode_rangeOk_total hv d hd
  case code =>
    rcases hd with hd | hd
    · exact hall d hd
    · exact processCodeBlock_rangeOk_total hk hv d hd
  case link =>
    rcases hd with hd | hd
    · exact hall d hd
    · exact processLink_rangeOk d hd
  case image =>
    rcases hd with hd | hd
    · exact hall d hd
    · exact processImage_rangeOk d hd
  case blockquote =>
    rcases hd with hd | hd
    · exact hall d hd
    · exact processBlockquote_rangeOk d hd
  case listItem =>
    rcases hd with hd | hd
    · exact hall d hd
    · exact processListItem_rangeOk_total hv d hd
  case thematicBreak =>
    rcases hd with hd | hd
    · exact hall d hd
    · exact processThematicBreak_rangeOk_total hk hv d hd
  case root => exact hall d hd
  case paragraph => exact hall d hd
  case text => exact hall d hd
  case list => exact hall d hd
  case other => exact hall d hd

/-- The invariant carried through the visit for one node. -/
def VisitOkNode (text : List Char) (n : MdNode) : Prop :=
  ∀ (anc : List MdNode) (st : ExtState), validTreeB text n = true →
    (∀ d ∈ st.decorations, rangeOk text.length d) →
    ∀ d ∈ (visitNode text anc n st).decorations, rangeOk text.length d

/-- The invariant carried through the visit for a forest. -/
def VisitOkForest (text : List Char) (f : MdForest) : Prop :=
  ∀ (anc : List MdNode) (st : ExtState), validForestB text f = true →
    (∀ d ∈ st.decorations, rangeOk text.length d) →
    ∀ d ∈ (visitForest text anc f st).decorations, rangeOk text.length d

theorem visitNode_rangeOk (text : List Char) (n : MdNode) : VisitOkNode text n := by
  refine @MdNode.rec (VisitOkNode text) (VisitOkForest text) ?_ ?_ ?_ n
  · intro k p u cs ih anc st hv hall
    simp only [validTreeB, Bool.and_eq_true] at hv
    simp only [visitNode]
    exact ih _ _ hv.2 (dispatchNode_rangeOk hv.1 hall)
  · intro anc st _ hall
    simpa [visitForest] using hall
  · intro hd tl ih1 ih2 anc st hv hall
    simp only [validForestB, Bool.and_eq_true] at hv
    simp only [visitForest]
    exact ih2 _ _ hv.2 (ih1 _ _ hv.1 hall)

theorem emptyAltLoop_rangeOk {text : List Char} :
    ∀ fuel searchPos ds, (∀ d ∈ ds, rangeOk text.length d) →
      ∀ d ∈ emptyAltLoop text fuel searchPos ds, rangeOk text.length d := by
  intro fuel
  induction fuel with
  | zero => intro searchPos ds hall d hd; simpa [emptyAltLoop] using hall d hd
  | succ n ih =>
    intro searchPos ds hall d hd
    simp only [emptyAltLoop] at hd
    cases hfind : indexOfSubFrom text emptyAltPat searchPos with
    | none =>
      rw [hfind] at hd
      exact hall d hd
    | some pos =>
      rw [hfind] at hd
      dsimp only at hd
      have hpos3 := indexOfSubFrom_add_length_le (by simp [emptyAltPat]) hfind
      simp only [emptyAltPat, List.length_cons, List.length_nil] at hpos3
      refine ih _ _ ?_ d hd
      intro d' hd'
      split at hd'
      · exact hall d' hd'
      · rw [List.mem_append] at hd'
        rcases hd' with hd' | hd'
        · exact hall d' hd'
        · simp only [List.mem_cons, List.mem_singleton, List.not_mem_nil, or_false] at hd'
          rcases hd' with hd' | hd' <;> subst hd' <;>
            exact ⟨by simp only; omega, by simp only; omega, by simp only; omega,
              fun _ => by simp only; omega⟩

theorem handleEmptyImageAlt_rangeOk {text : List Char} {ds : List DecorationRange}
    (hall : ∀ d ∈ ds, rangeOk text.length d) :
    ∀ d ∈ handleEmptyImageAlt text ds, rangeOk text.length d := by
  unfold handleEmptyImageAlt
  cases hfind : indexOfSubFrom text ['!', '['] 0 with
  | none => exact hall
  | some p => exact emptyAltLoop_rangeOk _ _ _ hall

theorem mem_insertByStart {a d : DecorationRange} :
    ∀ l, a ∈ insertByStart d l ↔ a = d ∨ a ∈ l := by
  intro l
  induction l with
  | nil => simp [insertByStart]
  | cons e es ih =>
    simp only [insertByStart]
    split
    · simp [List.mem_cons]
    · simp only [List.mem_cons, ih]
      tauto

theorem mem_sortByStart_aux {a : DecorationRange} :
    ∀ (l acc : List DecorationRange),
      a ∈ l.foldl (fun acc d => insertByStart d acc) acc ↔ a ∈ acc ∨ a ∈ l := by
  intro l
  induction l with
  | nil => simp
  | cons d ds ih =>
    intro acc
    simp only [List.foldl_cons, ih, mem_insertByStart, List.mem_cons]
    tauto

theorem mem_sortByStart {a : DecorationRange} {l : List DecorationRange} :
    a ∈ sortByStart l ↔ a ∈ l := by
  unfold sortByStart
  rw [mem_sortByStart_aux]
  simp

theorem pairwise_insertByStart {d : DecorationRange} {l : List DecorationRange}
    (h : l.Pairwise (fun a b => a.startPos ≤ b.startPos)) :
    (insertByStart d l).Pairwise (fun a b => a.startPos ≤ b.startPos) := by
  induction l with
  | nil => simp [insertByStart]
  | cons e es ih =>
    rw [List.pairwise_cons] at h
    simp only [insertByStart]
    split
    · rename_i hlt
      rw [List.pairwise_cons]
      refine ⟨?_, List.Pairwise.cons h.1 h.2⟩
      intro a ha
      rcases List.mem_cons.mp ha with rfl | ha
      · omega
      · have := h.1 a ha
        omega
    · rename_i hge
      rw [List.pairwise_cons]
      refine ⟨?_, ih h.2⟩
      intro a ha
      rcases (mem_insertByStart _).mp ha with rfl | ha
      · omega
      · exact h.1 a ha

theorem sortByStart_aux_sorted :
    ∀ (l acc : List DecorationRange),
      acc.Pairwise (fun a b => a.startPos ≤ b.startPos) →
      (l.foldl (fun acc d => insertByStart d acc) acc).Pairwise
        (fun a b => a.startPos ≤ b.startPos) := by
  intro l
  induction l with
  | nil => intro acc h; simpa using h
  | cons d ds ih => intro acc h; exact ih _ (pairwise_insertByStart h)

theorem sortByStart_sorted (l : List DecorationRange) :
    (sortByStart l).Pairwise (fun a b => a.startPos ≤ b.startPos) :=
  sortByStart_aux_sorted l [] (by simp)

/-! ### Claim C1 -/

/-- C1 (counterexample): it is not the case that every range produced by
`extractDecorations` has `startPos < endPos`: on the input `"![](url)"`
(image with empty alt text) the image alt-text range is zero-width. -/
theorem c1_zero_width_counterexample :
    ¬ (∀ d ∈ extractDecorations parseImgEmptyAlt imgEmptyAltText,
        d.startPos < d.endPos) := by
  decide

/-- C1 (amended): for every input and every remark tree satisfying the
parser's position discipline (`validTreeB`), every range returned by
`extractDecorations` satisfies
`0 ≤ startPos ≤ endPos ≤ length (normalized text)`, and
`startPos < endPos` for every range except the image alt-text range
(type `image`), which is zero-width exactly when the alt text is empty. -/
theorem c1_range_bounds (parse : List Char → Option MdNode) (text : List Char)
    (hv : ∀ ast, parse (normalizeInput text) = some ast →
      validTreeB (normalizeInput text) ast = true) :
    ∀ d ∈ extractDecorations parse text,
      0 ≤ d.startPos ∧ d.startPos ≤ d.endPos ∧
      d.endPos ≤ ((normalizeInput text).length : Int) ∧
      (d.type ≠ .image → d.startPos < d.endPos) := by
  intro d hd
  simp only [extractDecorations] at hd
  split at hd
  · simp at hd
  · cases hp : parse (normalizeInput text) with
    | none => rw [hp] at hd; simp at hd
    | some ast =>
      rw [hp] at hd
      dsimp only at hd
      simp only [extractFromAst, mem_sortByStart] at hd
      have hvisit := visitNode_rangeOk (normalizeInput text) ast [] ⟨[], []⟩
        (hv ast hp) (by simp)
      exact handleEmptyImageAlt_rangeOk (fun d' hd' => hvisit d' hd') d hd

/-- Witness for C1: the theorem applied to the `"# H1"` scenario at the
hide range `[0,2)`. -/
theorem c1_range_bounds_witness :
    0 ≤ (⟨0, 2, .hide, none, none⟩ : DecorationRange).startPos ∧
    (⟨0, 2, .hide, none, none⟩ : DecorationRange).startPos ≤
      (⟨0, 2, .hide, none, none⟩ : DecorationRange).endPos ∧
    (⟨0, 2, .hide, none, none⟩ : DecorationRange).endPos ≤
      ((normalizeInput h1Text).length : Int) ∧
    ((⟨0, 2, .hide, none, none⟩ : DecorationRange).type ≠ .image →
      (⟨0, 2, .hide, none, none⟩ : DecorationRange).startPos <
      (⟨0, 2, .hide, none, none⟩ : DecorationRange).endPos) :=
  c1_range_bounds parseH1 h1Text (fun ast h => by cases h; decide)
    ⟨0, 2, .hide, none, none⟩ (by decide)

/-! ### Claim C8 -/

/-- C8: for every parse function and every input string, the array
returned by `extractDecorations` is sorted ascending by `startPos`: every
adjacent pair satisfies `result[i].startPos ≤ result[i+1].startPos`. -/
theorem c8_sorted (parse : List Char → Option MdNode) (text : List Char) :
    ∀ i (h : i + 1 < (extractDecorations parse text).length),
      ((extractDecorations parse text).get ⟨i, by omega⟩).startPos ≤
      ((extractDecorations parse text).get ⟨i + 1, h⟩).startPos := by
  have hsorted : (extractDecorations parse text).Pairwise
      (fun a b => a.startPos ≤ b.startPos) := by
    simp only [extractDecorations]
    split
    · simp
    · cases parse (normalizeInput text) with
      | none => simp
      | some ast =>
        dsimp only
        simp only [extractFromAst]
        exact sortByStart_sorted _
  intro i h
  have := List.pairwise_iff_get.mp hsorted ⟨i, by omega⟩ ⟨i + 1, h⟩ (by simp)
  exact this

/-- Witness for C8: the theorem applied to the `"[text](url)"` scenario
at the first adjacent pair. -/
theorem c8_sorted_witness :
    ((extractDecorations parseLink linkText).get ⟨0, by decide⟩).startPos ≤
    ((extractDecorations parseLink linkText).get ⟨1, by decide⟩).startPos :=
  c8_sorted parseLink linkText 0 (by decide)

/-! ### Claim C10 -/

/-- C10: on the empty string, `extractDecorations` returns the empty
array; the result does not depend on the parse function (the parser, the
visitor and the empty-image-alt post-pass are never invoked — the guard
returns before the normalization and parse steps). -/
theorem c10_empty_input (parse : List Char → Option MdNode) :
    extractDecorations parse [] = [] := rfl

/-! ### Claim C9 -/

/-- C9: extraction is total.  (1) When the underlying parse throws
(modelled by `parse` returning `none`), the exception is caught and the
ranges accumulated before the failure — necessarily none, since parsing
precedes extraction — are returned.  (2) A node lacking valid position
offsets is skipped silently: its dispatch leaves the state unchanged,
while the traversal still descends into its children, so the rest of the
pass is not aborted. -/
theorem c9_total_extraction :
    (∀ (parse : List Char → Option MdNode) (text : List Char),
      parse (normalizeInput text) = none → extractDecorations parse text = []) ∧
    (∀ (text : List Char) (anc : List MdNode) (node : MdNode) (st : ExtState),
      hasValidPosition node = false →
      dispatchNode text anc node st = st ∧
      visitNode text anc node st =
        visitForest text (node :: anc) node.children (dispatchNode text anc node st)) := by
  constructor
  · intro parse text hp
    simp only [extractDecorations]
    split
    · rfl
    · rw [hp]
  · intro text anc node st hinv
    have hdisp : dispatchNode text anc node st = st := by
      unfold dispatchNode
      cases hk : node.kind <;> dsimp only <;>
        simp [processHeading, processStrong, processEmphasis, processStrikethrough,
          processInlineCode, processCodeBlock, processLink, processImage,
          processBlockquote, processListItem, processThematicBreak, hinv]
    refine ⟨hdisp, ?_⟩
    cases node with
    | mk k p u cs => rfl

/-- Witness for C9: a parse failure on `"# H1"` yields the empty range
list, and an offsets-free heading node dispatches to the unchanged
state. -/
theorem c9_total_extraction_witness :
    extractDecorations (fun _ => none) h1Text = [] ∧
    dispatchNode h1Text [] (.mk .heading none none .nil) ⟨[], []⟩ = ⟨[], []⟩ :=
  ⟨c9_total_extraction.1 (fun _ => none) h1Text rfl,
   (c9_total_extraction.2 h1Text [] (.mk .heading none none .nil) ⟨[], []⟩ rfl).1⟩

/-! ### Claim C3 -/

theorem normalizeNewlines_crlf {rest : List Char} :
    normalizeNewlines ('\r' :: '\n' :: rest) = '\n' :: normalizeNewlines rest := rfl

theorem normalizeNewlines_cr {rest : List Char}
    (h : ∀ r', rest = '\n' :: r' → False) :
    normalizeNewlines ('\r' :: rest) = '\n' :: normalizeNewlines rest := by
  cases rest with
  | nil => rfl
  | cons c cs =>
    by_cases hc : c = '\n'
    · exact absurd (hc ▸ rfl) (fun hh => h cs hh)
    · rw [normalizeNewlines]
      intro r hr
      injection hr with h1 h2
      exact hc h1

theorem normalizeNewlines_other {c : Char} {rest : List Char} (h : ¬ c = '\r') :
    normalizeNewlines (c :: rest) = c :: normalizeNewlines rest := by
  rw [normalizeNewlines]
  · intro r hh hr
    exact h hh
  · intro hh
    exact h hh

theorem normalizeNewlines_cons_length {c : Char} {rest : List Char}
    (h : ∀ r', c = '\r' → rest = '\n' :: r' → False) :
    (normalizeNewlines (c :: rest)).length = 1 + (normalizeNewlines rest).length := by
  by_cases hc : c = '\r'
  · subst hc
    rw [normalizeNewlines_cr (fun r' hr => h r' rfl hr)]
    simp [Nat.add_comm]
  · rw [normalizeNewlines_other hc]
    simp [Nat.add_comm]

theorem mapWalkAux_cons_single {target : Int} {c : Char} {l : List Char} {i ni : Nat}
    (h : ∀ r', c = '\r' → l = '\n' :: r' → False) :
    mapWalkAux target (c :: l) i ni =
      if (ni : Int) = target then i else mapWalkAux target l (i + 1) (ni + 1) := by
  by_cases hc : c = '\r'
  · subst hc
    cases l with
    | nil => rfl
    | cons c' cs =>
      by_cases hc' : c' = '\n'
      · exact absurd (hc' ▸ rfl) (fun hh => h cs rfl hh)
      · rw [mapWalkAux]
        intro r hh hr
        injection hr with h1 h2
        exact hc' h1
  · rw [mapWalkAux]
    intro r hh hr
    exact hc hh

theorem hasCRLF_cons {c : Char} {l : List Char}
    (h : ∀ r', c = '\r' → l = '\n' :: r' → False) :
    hasCRLF (c :: l) = hasCRLF l := by
  by_cases hc : c = '\r'
  · subst hc
    cases l with
    | nil => rfl
    | cons c' cs =>
      by_cases hc' : c' = '\n'
      · exact absurd (hc' ▸ rfl) (fun hh => h cs rfl hh)
      · rw [hasCRLF]
        intro r hh hr
        injection hr with h1 h2
        exact hc' h1
  · rw [hasCRLF]
    intro r hh hr
    exact hc hh

theorem hasCRLF_append_pair (v : List Char) :
    ∀ u : List Char, hasCRLF (u ++ '\r' :: '\n' :: v) = true := by
  intro u
  induction u using hasCRLF.induct with
  | case1 tail => rfl
  | case2 head rest hside ih =>
    have hcond : ∀ r', head = '\r' → rest ++ '\r' :: '\n' :: v = '\n' :: r' → False := by
      intro r' hh hr
      cases rest with
      | nil => simp at hr
      | cons c0 cs0 =>
        simp only [List.cons_append, List.cons.injEq] at hr
        exact hside cs0 hh (by rw [hr.1])
    rw [List.cons_append, hasCRLF_cons hcond]
    exact ih
  | case3 => rfl

theorem mapWalkAux_crlf_pair (v : List Char) :
    ∀ (u : List Char) (i ni : Nat),
      mapWalkAux ((ni : Int) + ((normalizeNewlines u).length : Int))
        (u ++ '\r' :: '\n' :: v) i ni = i + u.length := by
  intro u
  induction u using normalizeNewlines.induct with
  | case1 rest ih =>
    intro i ni
    rw [List.cons_append, List.cons_append, normalizeNewlines_crlf]
    conv_lhs => rw [mapWalkAux]
    rw [if_neg (by simp only [List.length_cons]; push_cast; omega)]
    have htarget : (ni : Int) + (('\n' :: normalizeNewlines rest).length : Int)
        = (((ni + 1 : Nat)) : Int) + ((normalizeNewlines rest).length : Int) := by
      simp only [List.length_cons]
      push_cast
      omega
    rw [htarget, ih (i + 2) (ni + 1)]
    simp only [List.length_cons]
    omega
  | case2 rest hside ih =>
    intro i ni
    rw [List.cons_append, normalizeNewlines_cr (fun r' hr => hside r' hr)]
    have hcond : ∀ r', ('\r' : Char) = '\r' → rest ++ '\r' :: '\n' :: v = '\n' :: r' → False := by
      intro r' _ hr
      cases rest with
      | nil => simp at hr
      | cons c0 cs0 =>
        simp only [List.cons_append, List.cons.injEq] at hr
        exact hside cs0 (by rw [hr.1])
    rw [mapWalkAux_cons_single hcond]
    rw [if_neg (by simp only [List.length_cons]; push_cast; omega)]
    have htarget : (ni : Int) + (('\n' :: normalizeNewlines rest).length : Int)
        = (((ni + 1 : Nat)) : Int) + ((normalizeNewlines rest).length : Int) := by
      simp only [List.length_cons]
      push_cast
      omega
    rw [htarget, ih (i + 1) (ni + 1)]
    simp only [List.length_cons]
    omega
  | case3 c rest hside hc ih =>
    intro i ni
    rw [List.cons_append, normalizeNewlines_other (fun hh => hc hh)]
    have hcond : ∀ r', c = '\r' → rest ++ '\r' :: '\n' :: v = '\n' :: r' → False := by
      intro r' hh hr
      exact hc hh
    rw [mapWalkAux_cons_single hcond]
    rw [if_neg (by simp only [List.length_cons]; push_cast; omega)]
    have htarget : (ni : Int) + ((c :: normalizeNewlines rest).length : Int)
        = (((ni + 1 : Nat)) : Int) + ((normalizeNewlines rest).length : Int) := by
      simp only [List.length_cons]
      push_cast
      omega
    rw [htarget, ih (i + 1) (ni + 1)]
    simp only [List.length_cons]
    omega
  | case4 =>
    intro i ni
    simp only [List.nil_append, normalizeNewlines]
    conv_lhs => rw [mapWalkAux]
    simp

theorem mapWalkAux_past_end {target : Int} :
    ∀ (u : List Char) (i ni : Nat),
      (ni : Int) + ((normalizeNewlines u).length : Int) ≤ target →
      mapWalkAux target u i ni = i + u.length := by
  intro u i ni
  induction u, i, ni using mapWalkAux.induct target with
  | case1 rest i ni heq =>
    intro hle
    rw [normalizeNewlines_crlf] at hle
    simp only [List.length_cons] at hle
    omega
  | case2 rest i ni hne ih =>
    intro hle
    conv_lhs => rw [mapWalkAux]
    rw [if_neg hne]
    rw [normalizeNewlines_crlf] at hle
    simp only [List.length_cons] at hle
    have := ih (by push_cast at hle ⊢; omega)
    simp only [List.length_cons]
    omega
  | case3 head rest i ni hside heq =>
    intro hle
    rw [normalizeNewlines_cons_length (fun r' hh hr => hside r' hh hr)] at hle
    push_cast at hle
    omega
  | case4 head rest i ni hside hne ih =>
    intro hle
    rw [mapWalkAux_cons_single (fun r' hh hr => hside r' hh hr), if_neg hne]
    rw [normalizeNewlines_cons_length (fun r' hh hr => hside r' hh hr)] at hle
    have := ih (by push_cast at hle ⊢; omega)
    simp only [List.length_cons]
    omega
  | case5 i x =>
    intro _
    simp [mapWalkAux]

theorem mapNormalizedToOriginal_walk {p : Int} {text : List Char}
    (h1 : text.isEmpty = false) (h2 : hasCRLF text = true) :
    mapNormalizedToOriginal p text = (mapWalkAux p text 0 0 : Int) := by
  unfold mapNormalizedToOriginal
  rw [h1, h2]
  simp

/-- C3: `mapNormalizedToOriginal` walks the original text left to right.
(1) When the normalized position is exactly the `\n` half of a CRLF pair
— i.e., the position right after the normalization of the prefix `u` —
the function returns the offset of the `\r` (which is `u.length`), not of
the `\n`.  (2) When the original text contains no CRLF it is the
identity.  (3) When the target is never reached (the position is at or
past the length of the normalized text), it returns the original text's
length. -/
theorem c3_map_normalized_to_original :
    (∀ (u v : List Char),
      mapNormalizedToOriginal (((normalizeNewlines u).length : Nat) : Int)
        (u ++ '\r' :: '\n' :: v) = (u.length : Int)) ∧
    (∀ (text : List Char) (p : Int), hasCRLF text = false →
      mapNormalizedToOriginal p text = p) ∧
    (∀ (text : List Char) (p : Nat), hasCRLF text = true →
      (normalizeNewlines text).length ≤ p →
      mapNormalizedToOriginal (p : Int) text = (text.length : Int)) := by
  refine ⟨?_, ?_, ?_⟩
  · intro u v
    have hnonempty : (u ++ '\r' :: '\n' :: v).isEmpty = false := by
      cases u <;> rfl
    have hcrlf := hasCRLF_append_pair v u
    rw [mapNormalizedToOriginal_walk hnonempty hcrlf]
    have := mapWalkAux_crlf_pair v u 0 0
    rw [Nat.cast_zero, zero_add] at this
    rw [this]
    simp
  · intro text p hno
    unfold mapNormalizedToOriginal
    split
    · rfl
    · rw [if_pos (by simp [hno])]
  · intro text p hyes hpast
    have hnonempty : text.isEmpty = false := by
      cases text with
      | nil => simp [hasCRLF] at hyes
      | cons c cs => rfl
    rw [mapNormalizedToOriginal_walk hnonempty hyes]
    have := @mapWalkAux_past_end (p : Int) text 0 0 (by push_cast; omega)
    rw [this]
    simp

/-- Witness for C3: on `"a\r\nb"` the normalized `\n` position 1 maps to
the `\r` at offset 1; identity on CRLF-free `"ab"`; an out-of-range
position maps to the length 4. -/
theorem c3_map_normalized_to_original_witness :
    hasCRLF ['a', '\r', '\n', 'b'] = true ∧
    mapNormalizedToOriginal 1 ['a', '\r', '\n', 'b'] = 1 ∧
    mapNormalizedToOriginal 2 ['a', 'b'] = 2 ∧
    mapNormalizedToOriginal 9 ['a', '\r', '\n', 'b'] = 4 := by
  refine ⟨by decide, ?_, ?_, ?_⟩
  · have := c3_map_normalized_to_original.1 ['a'] ['b']
    simpa using this
  · exact c3_map_normalized_to_original.2.1 ['a', 'b'] 2 (by decide)
  · have := c3_map_normalized_to_original.2.2 ['a', '\r', '\n', 'b'] 9 (by decide) (by decide)
    simpa using this

/-! ### Claim C6 -/

/-- C6: on the input `"[text](url)"`, extraction produces exactly the
hide ranges `[0,1)`, `[5,6)`, `[6,7)`, `[10,11)` at the bracket/paren
boundaries, the hide range `[7,10)` over the URL text, and one `link`
range `[1,5)` carrying the url `"url"` — and no other ranges. -/
theorem c6_link_scenario :
    extractDecorations parseLink linkText =
      [⟨0, 1, .hide, none, none⟩,
       ⟨1, 5, .link, some ['u', 'r', 'l'], none⟩,
       ⟨5, 6, .hide, none, none⟩,
       ⟨6, 7, .hide, none, none⟩,
       ⟨7, 10, .hide, none, none⟩,
       ⟨10, 11, .hide, none, none⟩] := by
  decide

/-! ### Claim C2 -/

/-- C2: (1) on the input `"# H1"`, extraction emits the hide range
`[0,2)` covering the `#` and the following space together, and the two
coincident content ranges `[2,4)` of types `heading1` and `heading`;
(2) in general, for every heading node with valid offsets and a non-empty
leading `#` run, `processHeading` emits exactly one hide range covering
the `#` run plus the whitespace run after it, followed — whenever the
whitespace-trimmed content is non-empty — by the level-specific and the
generic heading range over the same interval. -/
theorem c2_heading_behavior :
    ((⟨0, 2, .hide, none, none⟩ : DecorationRange) ∈
        extractDecorations parseH1 h1Text ∧
     (⟨2, 4, .heading1, none, none⟩ : DecorationRange) ∈
        extractDecorations parseH1 h1Text ∧
     (⟨2, 4, .heading, none, none⟩ : DecorationRange) ∈
        extractDecorations parseH1 h1Text) ∧
    (∀ (text : List Char) (node : MdNode) (s e : Nat),
      node.position = some ⟨some s, some e⟩ →
      0 < countRun isHashChar text s e →
      processHeading text node =
        (let m := countRun isHashChar text s e
         let w := countRun isJsWhitespace text (s + m) e
         let hideEnd := s + m + w
         let contentEnd := trimEndAux text (e - hideEnd) e
         [⟨s, hideEnd, .hide, none, none⟩] ++
         (if hideEnd < contentEnd then
           [⟨hideEnd, contentEnd, headingTypeOf m, none, none⟩,
            ⟨hideEnd, contentEnd, .heading, none, none⟩]
         else []))) := by
  constructor
  · exact ⟨by decide, by decide, by decide⟩
  · intro text node s e hpos hm
    simp only [processHeading, hasValidPosition_of_offsets hpos, if_true,
      startOff_of_offsets hpos, endOff_of_offsets hpos]
    rw [if_neg (by omega)]

/-- Witness for C2: the general characterization applied to the heading
node of `"# H1"`, evaluated. -/
theorem c2_heading_behavior_witness :
    0 < countRun isHashChar h1Text 0 4 ∧
    processHeading h1Text astH1Heading =
      [⟨0, 2, .hide, none, none⟩, ⟨2, 4, .heading1, none, none⟩,
       ⟨2, 4, .heading, none, none⟩] := by
  refine ⟨by decide, ?_⟩
  rw [c2_heading_behavior.2 h1Text astH1Heading 0 4 rfl (by decide)]
  decide

/-! ### Claim C7 -/

/-- C7: (1) when the nearest `strong` ancestor of an emphasis node has
valid offsets enclosing the emphasis node's offsets with exactly a
2-character margin on each side (the `***text***` triple-marker
configuration), `processEmphasis` emits no ranges at all; (2) for any
other emphasis node with a `strong` ancestor (offsets not in the
triple-marker configuration), the marker decorations are emitted with
content type `boldItalic` instead of `italic`; (3) the hide ranges and
the single `boldItalic` content range for such a span come from the
strong handler: `processStrong` with an `emphasis` ancestor emits exactly
the marker decorations with content type `boldItalic`. -/
theorem c7_triple_marker_emphasis :
    (∀ (text : List Char) (node : MdNode) (anc : List MdNode)
       (s e ss se : Nat) (ps : MdNode),
      node.position = some ⟨some s, some e⟩ →
      anc.find? (fun a => a.kind == NodeKind.strong) = some ps →
      ps.position = some ⟨some ss, some se⟩ →
      s = ss + 2 → e + 2 = se →
      processEmphasis text node anc = []) ∧
    (∀ (text : List Char) (node : MdNode) (anc : List MdNode)
       (s e ss se : Nat) (ps : MdNode) (marker : List Char),
      node.position = some ⟨some s, some e⟩ →
      anc.find? (fun a => a.kind == NodeKind.strong) = some ps →
      ps.position = some ⟨some ss, some se⟩ →
      ¬ (s = ss + 2 ∧ e + 2 = se) →
      getItalicMarker text s = some marker →
      processEmphasis text node anc =
        addMarkerDecorations s e marker.length .boldItalic) ∧
    (∀ (text : List Char) (node : MdNode) (anc : List MdNode)
       (s e : Nat) (marker : List Char),
      node.position = some ⟨some s, some e⟩ →
      getBoldMarker text s = some marker →
      (anc.any fun a => a.kind == NodeKind.emphasis) = true →
      processStrong text node anc =
        addMarkerDecorations s e marker.length .boldItalic) := by
  refine ⟨?_, ?_, ?_⟩
  · intro text node anc s e ss se ps hpos hfind hpos' hs he
    have hskip : emphasisSkip s e anc = true := by
      unfold emphasisSkip
      rw [hfind]
      dsimp only
      rw [hpos']
      dsimp only
      rw [Bool.and_eq_true]
      constructor
      · simp only [decide_eq_true_eq]
        omega
      · simp only [decide_eq_true_eq]
        omega
    simp only [processEmphasis, hasValidPosition_of_offsets hpos, if_true,
      startOff_of_offsets hpos, endOff_of_offsets hpos]
    cases getItalicMarker text s with
    | none => rfl
    | some marker =>
      dsimp only
      rw [if_pos hskip]
  · intro text node anc s e ss se ps marker hpos hfind hpos' hne hmarker
    have hskip : emphasisSkip s e anc = false := by
      unfold emphasisSkip
      rw [hfind]
      dsimp only
      rw [hpos']
      dsimp only
      rw [Bool.and_eq_false_iff]
      rcases Decidable.em (s = ss + 2) with h1 | h1
      · have h2 : ¬ (e + 2 = se) := fun h2 => hne ⟨h1, h2⟩
        right
        simp only [decide_eq_false_iff_not]
        omega
      · left
        simp only [decide_eq_false_iff_not]
        omega
    have hp := List.find?_some hfind
    have hmem := List.mem_of_find?_eq_some hfind
    have hany : (anc.any fun a => a.kind == NodeKind.strong) = true := by
      rw [List.any_eq_true]
      exact ⟨ps, hmem, hp⟩
    simp only [processEmphasis, hasValidPosition_of_offsets hpos, if_true,
      startOff_of_offsets hpos, endOff_of_offsets hpos, hmarker]
    rw [if_neg (by rw [hskip]; simp)]
    rw [hany]
    rfl
  · intro text node anc s e marker hpos hmarker hany
    simp only [processStrong, hasValidPosition_of_offsets hpos, if_true,
      startOff_of_offsets hpos, endOff_of_offsets hpos, hmarker, hany]

/-- The text `"***text***"`. -/
def tripleStarText : List Char := ['*', '*', '*', 't', 'e', 'x', 't', '*', '*', '*']

/-- A strong node over `[0,10)` (as in a strong-outside reading of
`"***text***"`). -/
def strongNode010 : MdNode := .mk .strong (some ⟨some 0, some 10⟩) none .nil

/-- An emphasis node over `[2,8)`, exactly 2 characters inside
`strongNode010`. -/
def empNode28 : MdNode := .mk .emphasis (some ⟨some 2, some 8⟩) none .nil

/-- An emphasis node over `[1,9)` (as remark actually nests
`"***text***"`: emphasis outside, strong `[1,9)` inside). -/
def empNode010 : MdNode := .mk .emphasis (some ⟨some 0, some 10⟩) none .nil

/-- Witness for C7: the triple-marker emphasis `[2,8)` under the strong
ancestor `[0,10)` emits nothing; a non-matching emphasis with a strong
ancestor emits `boldItalic` marker decorations; the strong node `[1,9)`
under an emphasis ancestor emits the `boldItalic` decorations. -/
theorem c7_triple_marker_emphasis_witness :
    processEmphasis tripleStarText empNode28 [strongNode010] = [] ∧
    processEmphasis tripleStarText (.mk .emphasis (some ⟨some 1, some 9⟩) none .nil)
        [strongNode010] = addMarkerDecorations 1 9 1 .boldItalic ∧
    processStrong tripleStarText (.mk .strong (some ⟨some 1, some 9⟩) none .nil)
        [empNode010] = addMarkerDecorations 1 9 2 .boldItalic := by
  refine ⟨?_, ?_, ?_⟩
  · exact c7_triple_marker_emphasis.1 tripleStarText empNode28 [strongNode010]
      2 8 0 10 strongNode010 rfl rfl rfl rfl rfl
  · exact c7_triple_marker_emphasis.2.1 tripleStarText
      (.mk .emphasis (some ⟨some 1, some 9⟩) none .nil) [strongNode010]
      1 9 0 10 strongNode010 ['*'] rfl rfl rfl (by omega) (by decide)
  · exact c7_triple_marker_emphasis.2.2 tripleStarText
      (.mk .strong (some ⟨some 1, some 9⟩) none .nil) [empNode010]
      1 9 ['*', '*'] rfl (by decide) rfl

/-! ### Claim C4 -/

theorem findLRUAux_keeps {k0 : String} {a : Nat} :
    ∀ l : List (String × CacheEntry), (∀ x ∈ l, a ≤ x.2.lastAccessed) →
      findLRUAux l (some k0) (some a) = some k0 := by
  intro l
  induction l with
  | nil => intro _; rfl
  | cons x rest ih =>
    intro hall
    cases x with
    | mk k en =>
      have hx := hall (k, en) (List.mem_cons_self _ _)
      simp only at hx
      simp only [findLRUAux]
      rw [if_neg (by simp only [decide_eq_true_eq]; omega)]
      exact ih (fun y hy => hall y (List.mem_cons_of_mem _ hy))

theorem findLRUAux_min {kmin : String} {emin : CacheEntry} :
    ∀ (l : List (String × CacheEntry)) (best : Option String) (bestA : Option Nat),
      (kmin, emin) ∈ l →
      (∀ x ∈ l, x ≠ (kmin, emin) → emin.lastAccessed < x.2.lastAccessed) →
      (match bestA with
       | none => True
       | some a => emin.lastAccessed < a) →
      findLRUAux l best bestA = some kmin := by
  intro l
  induction l with
  | nil => intro best bestA hmem; simp at hmem
  | cons x rest ih =>
    intro best bestA hmem hmin hba
    cases x with
    | mk k en =>
      by_cases hx : (k, en) = (kmin, emin)
      · injection hx with h1 h2
        subst h1
        subst h2
        simp only [findLRUAux]
        rw [if_pos (by
          cases bestA with
          | none => simp
          | some a =>
            dsimp only
            dsimp only at hba
            simp only [decide_eq_true_eq]
            omega)]
        exact findLRUAux_keeps rest (fun y hy => by
          by_cases hy' : y = (k, en)
          · subst hy'; exact Nat.le_refl _
          · exact Nat.le_of_lt (hmin y (List.mem_cons_of_mem _ hy) hy'))
      · have hmem' : (kmin, emin) ∈ rest := by
          rcases List.mem_cons.mp hmem with h | h
          · exact absurd h.symm hx
          · exact h
        have hlt : emin.lastAccessed < en.lastAccessed :=
          hmin (k, en) (List.mem_cons_self _ _) hx
        simp only [findLRUAux]
        split
        · exact ih (some k) (some en.lastAccessed) hmem'
            (fun y hy hy' => hmin y (List.mem_cons_of_mem _ hy) hy')
            (by dsimp only; omega)
        · exact ih best bestA hmem'
            (fun y hy hy' => hmin y (List.mem_cons_of_mem _ hy) hy') hba

theorem evictLRU_eq {kmin : String} {emin : CacheEntry}
    {entries : List (String × CacheEntry)}
    (hmem : (kmin, emin) ∈ entries)
    (hmin : ∀ x ∈ entries, x ≠ (kmin, emin) → emin.lastAccessed < x.2.lastAccessed)
    (hk : kmin ≠ "") :
    evictLRU entries = mapDelete kmin entries := by
  unfold evictLRU
  rw [findLRUAux_min entries none none hmem hmin trivial]
  dsimp only
  rw [if_neg hk]

theorem mapSet_keys_of_mem {k : String} {v : CacheEntry} :
    ∀ (l : List (String × CacheEntry)) (en0 : CacheEntry), mapGet k l = some en0 →
      (mapSet k v l).map Prod.fst = l.map Prod.fst := by
  intro l
  induction l with
  | nil => intro en0 h; simp [mapGet] at h
  | cons x rest ih =>
    intro en0 h
    cases x with
    | mk k' v' =>
      simp only [mapGet] at h
      simp only [mapSet]
      split
      · rename_i hk
        simp [hk]
      · rename_i hk
        rw [if_neg hk] at h
        simp only [List.map_cons]
        rw [ih en0 h]

/-- C4: (1) `get` is a hit exactly when an entry for the document exists
and its stored version equals the current version; any mismatch is a
miss (`none`), never an error.  (2) `put` on a full cache (at least
`maxCacheSize = 10` tracked identities) with a new document id first
evicts exactly the entry with the smallest `lastAccessed`, then appends
the new entry stamped with the next access tick.  (3) `put` for an
already-tracked id replaces the entry in place: no eviction happens and
the set of tracked keys is unchanged. -/
theorem c4_cache_get_put :
    (∀ (cache : DecorationCache) (docId : String) (version : Nat)
       (ds : List DecorationRange),
      getCachedDecorations cache docId version = some ds ↔
      ∃ en, mapGet docId cache.entries = some en ∧ en.version = version ∧
        ds = en.decorations) ∧
    (∀ (cache : DecorationCache) (docId : String) (version : Nat)
       (ds : List DecorationRange) (txt : List Char) (kmin : String)
       (emin : CacheEntry),
      (cache.entries.map Prod.fst).Nodup →
      maxCacheSize ≤ cache.entries.length →
      mapGet docId cache.entries = none →
      (kmin, emin) ∈ cache.entries →
      (∀ x ∈ cache.entries, x ≠ (kmin, emin) →
        emin.lastAccessed < x.2.lastAccessed) →
      kmin ≠ "" →
      setCachedDecorations cache docId version ds txt =
        ⟨mapSet docId ⟨version, ds, txt, cache.accessCounter + 1⟩
           (mapDelete kmin cache.entries),
         cache.accessCounter + 1⟩) ∧
    (∀ (cache : DecorationCache) (docId : String) (version : Nat)
       (ds : List DecorationRange) (txt : List Char) (en0 : CacheEntry),
      mapGet docId cache.entries = some en0 →
      setCachedDecorations cache docId version ds txt =
        ⟨mapSet docId ⟨version, ds, txt, cache.accessCounter + 1⟩ cache.entries,
         cache.accessCounter + 1⟩ ∧
      (mapSet docId (⟨version, ds, txt, cache.accessCounter + 1⟩ : CacheEntry)
          cache.entries).map Prod.fst = cache.entries.map Prod.fst) := by
  refine ⟨?_, ?_, ?_⟩
  · intro cache docId version ds
    unfold getCachedDecorations
    cases hg : mapGet docId cache.entries with
    | none =>
      simp
    | some en =>
      dsimp only
      split
      · rename_i hne
        constructor
        · intro h; cases h
        · rintro ⟨en', hen', hv, hd⟩
          cases hen'
          exact absurd hv hne
      · rename_i hne
        rw [Decidable.not_not] at hne
        constructor
        · intro h
          cases h
          exact ⟨en, rfl, hne, rfl⟩
        · rintro ⟨en', hen', hv, hd⟩
          cases hen'
          rw [hd]
  · intro cache docId version ds txt kmin emin hnodup hfull hnone hmem hmin hk
    unfold setCachedDecorations
    rw [if_pos (by simp [hnone, hfull])]
    rw [evictLRU_eq hmem hmin hk]
  · intro cache docId version ds txt en0 hsome
    constructor
    · unfold setCachedDecorations
      rw [if_neg (by simp [hsome])]
    · exact mapSet_keys_of_mem cache.entries en0 hsome

/-- A concrete cache with ten tracked documents for the C4 witness. -/
def demoEntries : List (String × CacheEntry) :=
  [("d0", ⟨0, [], [], 10⟩), ("d1", ⟨0, [], [], 11⟩), ("d2", ⟨0, [], [], 12⟩),
   ("d3", ⟨0, [], [], 13⟩), ("d4", ⟨0, [], [], 14⟩), ("d5", ⟨0, [], [], 15⟩),
   ("d6", ⟨0, [], [], 16⟩), ("d7", ⟨0, [], [], 17⟩), ("d8", ⟨0, [], [], 18⟩),
   ("d9", ⟨7, [], [], 19⟩)]

/-- Witness for C4: a hit on a matching version, and a put on the full
ten-entry cache that evicts the least recently used key `"d0"`. -/
theorem c4_cache_get_put_witness :
    getCachedDecorations ⟨demoEntries, 19⟩ ("d9") 7 = some [] ∧
    setCachedDecorations ⟨demoEntries, 19⟩ ("dx") 1 [] [] =
      ⟨mapSet ("dx") ⟨1, [], [], 20⟩ (mapDelete ("d0") demoEntries), 20⟩ := by
  constructor
  · exact (c4_cache_get_put.1 ⟨demoEntries, 19⟩ ("d9") 7 []).mpr
      ⟨⟨7, [], [], 19⟩, by decide, rfl, rfl⟩
  · exact c4_cache_get_put.2.1 ⟨demoEntries, 19⟩ ("dx") 1 [] [] ("d0")
      ⟨0, [], [], 10⟩ (by decide) (by decide) (by decide) (by decide) (by decide)
      (by decide)

/-! ### Claim C5 -/

theorem groupGet_groupAdd {ty t : DecorationType} {r : Range} :
    ∀ g : List (DecorationType × List Range),
      groupGet t (groupAdd ty r g) =
        if ty = t then groupGet t g ++ [r] else groupGet t g := by
  intro g
  induction g with
  | nil =>
    by_cases h : ty = t <;> simp_all [groupAdd, groupGet]
  | cons x g ih =>
    cases x with
    | mk t' rs =>
      by_cases h1 : t' = ty <;> by_cases h2 : t' = t <;> by_cases h3 : ty = t <;>
        simp_all [groupAdd, groupGet]

theorem filter_foldl_mem :
    ∀ (ds : List DecorationRange) (originalText : List Char)
      (selections : List Selection) (g : List (DecorationType × List Range))
      (t : DecorationType) (rr : Range),
      (rr ∈ groupGet t (ds.foldl (fun filtered d =>
        match createRange d.startPos d.endPos originalText with
        | none => filtered
        | some range =>
          if isRangeSelected range selections (selectedRangesOf selections) ||
             isLineOfRangeSelected range (selectedLinesOf selections) then filtered
          else groupAdd d.type range filtered) g)) ↔
      (rr ∈ groupGet t g ∨ ∃ d ∈ ds, d.type = t ∧
        createRange d.startPos d.endPos originalText = some rr ∧
        (isRangeSelected rr selections (selectedRangesOf selections) ||
         isLineOfRangeSelected rr (selectedLinesOf selections)) = false) := by
  intro ds originalText selections
  induction ds with
  | nil =>
    intro g t rr
    simp
  | cons d rest ih =>
    intro g t rr
    rw [List.foldl_cons, ih]
    have hstep : (rr ∈ groupGet t
        (match createRange d.startPos d.endPos originalText with
         | none => g
         | some range =>
           if isRangeSelected range selections (selectedRangesOf selections) ||
              isLineOfRangeSelected range (selectedLinesOf selections) then g
           else groupAdd d.type range g)) ↔
        (rr ∈ groupGet t g ∨ (d.type = t ∧
          createRange d.startPos d.endPos originalText = some rr ∧
          (isRangeSelected rr selections (selectedRangesOf selections) ||
           isLineOfRangeSelected rr (selectedLinesOf selections)) = false)) := by
      cases hcr : createRange d.startPos d.endPos originalText with
      | none => simp [hcr]
      | some range =>
        dsimp only
        by_cases hsup : (isRangeSelected range selections (selectedRangesOf selections) ||
            isLineOfRangeSelected range (selectedLinesOf selections)) = true
        · rw [if_pos hsup]
          constructor
          · exact fun h => Or.inl h
          · rintro (h | ⟨-, hr, hs⟩)
            · exact h
            · cases hr
              rw [hsup] at hs
              cases hs
        · rw [if_neg hsup]
          rw [Bool.not_eq_true] at hsup
          rw [groupGet_groupAdd]
          by_cases hty : d.type = t
          · rw [if_pos hty, List.mem_append, List.mem_singleton]
            constructor
            · rintro (h | rfl)
              · exact Or.inl h
              · exact Or.inr ⟨hty, rfl, hsup⟩
            · rintro (h | ⟨-, hr, -⟩)
              · exact Or.inl h
              · cases hr
                exact Or.inr rfl
          · rw [if_neg hty]
            constructor
            · exact fun h => Or.inl h
            · rintro (h | ⟨hty', -, -⟩)
              · exact h
              · exact absurd hty' hty
    rw [hstep]
    simp only [List.mem_cons]
    constructor
    · rintro ((h | hd) | ⟨d', hd', rest'⟩)
      · exact Or.inl h
      · exact Or.inr ⟨d, Or.inl rfl, hd⟩
      · exact Or.inr ⟨d', Or.inr hd', rest'⟩
    · rintro (h | ⟨d', hd' | hd', rest'⟩)
      · exact Or.inl (Or.inl h)
      · subst hd'
        exact Or.inl (Or.inr rest')
      · exact Or.inr ⟨d', hd', rest'⟩

/-- C5: (1) a decoration range whose converted editor range spans any
line in the selected-lines set (all lines touched by any selection or
cursor, endpoints inclusive) is excluded from the filter's output under
every decoration type, even when no selection geometrically overlaps it;
(2) every decoration that survives filtering has its converted range in
the output map grouped under the decoration's own type. -/
theorem c5_filter_line_suppression :
    (∀ (decorations : List DecorationRange) (originalText : List Char)
       (selections : List Selection) (t : DecorationType) (rr : Range),
      isLineOfRangeSelected rr (selectedLinesOf selections) = true →
      rr ∉ groupGet t (filterDecorations decorations originalText selections)) ∧
    (∀ (decorations : List DecorationRange) (originalText : List Char)
       (selections : List Selection) (d : DecorationRange) (rr : Range),
      d ∈ decorations →
      createRange d.startPos d.endPos originalText = some rr →
      isRangeSelected rr selections (selectedRangesOf selections) = false →
      isLineOfRangeSelected rr (selectedLinesOf selections) = false →
      rr ∈ groupGet d.type (filterDecorations decorations originalText selections)) := by
  constructor
  · intro decorations originalText selections t rr hline hmem
    rw [filterDecorations, filter_foldl_mem] at hmem
    rcases hmem with h | ⟨d, -, -, -, hs⟩
    · simp [groupGet] at h
    · rw [Bool.or_eq_false_iff] at hs
      rw [hs.2] at hline
      cases hline
  · intro decorations originalText selections d rr hd hcr h1 h2
    rw [filterDecorations, filter_foldl_mem]
    exact Or.inr ⟨d, hd, rfl, hcr, by rw [h1, h2]; rfl⟩

/-- Document text `"abc\ndefg"` for the C5 witness. -/
def demoText : List Char := ['a', 'b', 'c', '\n', 'd', 'e', 'f', 'g']

/-- A single cursor on line 0 for the C5 witness. -/
def demoSels : List Selection := [⟨⟨0, 0⟩, ⟨0, 0⟩⟩]

/-- Decorations for the C5 witness: a bold range on line 0 and an italic
range on line 1. -/
def demoDecs : List DecorationRange :=
  [⟨0, 1, .bold, none, none⟩, ⟨4, 6, .italic, none, none⟩]

/-- Witness for C5: with a cursor on line 0, the bold range on line 0 is
suppressed while the italic range on line 1 survives under its type. -/
theorem c5_filter_line_suppression_witness :
    (Range.mk ⟨0, 0⟩ ⟨0, 1⟩) ∉
      groupGet .bold (filterDecorations demoDecs demoText demoSels) ∧
    (Range.mk ⟨1, 0⟩ ⟨1, 2⟩) ∈
      groupGet .italic (filterDecorations demoDecs demoText demoSels) := by
  constructor
  · exact c5_filter_line_suppression.1 demoDecs demoText demoSels .bold
      (Range.mk ⟨0, 0⟩ ⟨0, 1⟩) (by decide)
  · exact c5_filter_line_suppression.2 demoDecs demoText demoSels
      ⟨4, 6, .italic, none, none⟩ (Range.mk ⟨1, 0⟩ ⟨1, 2⟩)
      (by decide) (by decide) (by decide) (by decide)

end MdInline
